import Mathlib

/-!
# Verification of the libspec templating engine (`src/libspec/spec.py`)

This development shallowly embeds the core of the libspec repository: the
docstring-inheritance template resolver, the jinja-style variable binder
(context builder), the renderer, and the structured XML serializer of the
`Ctx` class in `src/libspec/spec.py`, together with the
`UnimplementedMethodError` of `src/err.py`.

Modelling conventions:
* Python strings are Lean `String`s; every string operation used by the code
  (`inspect.cleandoc`, `str.strip`, `str.replace('-', '_')`, `'\n'.join`) is
  re-implemented over `String.data` so that all definitions evaluate by
  kernel reduction.
* A Python class hierarchy instance is a `SpecInstance`: the leaf class, the
  list of proper ancestors that precede `Ctx` in the MRO (most-derived
  first, exactly the classes visited by `_get_base_template`), and the
  attribute table that `getattr` would expose (user accessors and data
  attributes, with inheritance already resolved).  The engine-internal
  methods (`ctx`, `render_xml`, …) appear only through the `dir()` model
  `dirNames`, mirroring how `_do_ctx` filters them.
* Exceptions become the `Except SpecErr` monad: `AttributeError`,
  `UnimplementedMethodError` (method name and the class name that
  `src/err.py` extracts from the raising frame) and `TypeError`.
* `jinja2.meta.find_undeclared_variables` and `Template(...).render` are
  external collaborators; they are modelled for variable-interpolation
  templates (`{{name}}` forms): `findVars` extracts the set of distinct
  identifiers between double braces and `renderVars` substitutes them,
  rendering unknown identifiers as the empty string (jinja's default
  `Undefined`).  All theorems evaluate templates of this shape only.
* Accessor invocations are observable: `doCtxFull` additionally returns the
  list of accessor names invoked, in call order, so that "invoked exactly
  once" claims are statable.  `doCtx` is its value projection.
-/

/-! ## Character and string utilities (kernel-reducible replacements) -/

/-- Whitespace test used by the Python `str.strip`/`cleandoc` model. -/
def isWsChar (c : Char) : Bool :=
  c = ' ' || c = '\n' || c = '\t' || c = '\r'

/-- Lexicographic `≤` on char lists: the order Python's `sorted` uses on
strings (code-point comparison). -/
def cmpLe : List Char → List Char → Bool
  | [], _ => true
  | _ :: _, [] => false
  | x :: xs, y :: ys => if x = y then cmpLe xs ys else decide (x < y)

/-- Python string `≤` (used by `sorted`). -/
def strLeB (a b : String) : Bool := cmpLe a.data b.data

/-- Python `str.replace('-', '_')` (single-character replacement). -/
def dashTr (s : String) : String :=
  String.mk (s.data.map (fun c => if c = '-' then '_' else c))

/-- Python `str.strip()`. -/
def trimStr (s : String) : String :=
  String.mk (((s.data.dropWhile isWsChar).reverse.dropWhile isWsChar).reverse)

/-- Split a char list at newline characters (Python `str.split('\n')`). -/
def splitNl : List Char → List (List Char)
  | [] => [[]]
  | '\n' :: rest => [] :: splitNl rest
  | c :: rest =>
    match splitNl rest with
    | l :: ls => (c :: l) :: ls
    | [] => [[c]]

/-- Join char-list lines with newlines (Python `'\n'.join`). -/
def joinNl : List (List Char) → List Char
  | [] => []
  | [l] => l
  | l :: ls => l ++ '\n' :: joinNl ls

/-- Join strings with a separator (Python `sep.join`, nonempty case). -/
def joinSep (sep : String) : List String → String
  | [] => ""
  | [x] => x
  | x :: xs => x ++ sep ++ joinSep sep xs

/-- Number of leading spaces of a line. -/
def leadSpaces (cs : List Char) : Nat := (cs.takeWhile (· = ' ')).length

/-- A line that is only spaces (no content after `lstrip`). -/
def blankLine (cs : List Char) : Bool := (cs.dropWhile (· = ' ')).isEmpty

/-- `inspect.cleandoc`: strip the first line's leading spaces, remove the
common leading margin of the remaining non-blank lines, then drop trailing
and leading empty lines. -/
def cleandoc (doc : String) : String :=
  match splitNl doc.data with
  | [] => ""
  | first :: rest =>
    let margin : Option Nat := rest.foldl
      (fun m line =>
        if blankLine line then m
        else match m with
          | none => some (leadSpaces line)
          | some k => some (min k (leadSpaces line))) none
    let rest' := match margin with
      | none => rest
      | some k => rest.map (fun l => l.drop k)
    let lines := (first.dropWhile (· = ' ')) :: rest'
    let lines := (lines.reverse.dropWhile List.isEmpty).reverse
    let lines := lines.dropWhile List.isEmpty
    String.mk (joinNl lines)

/-- Is `sub` a prefix of `l`? (helper for substring search). -/
def leadsWith : List Char → List Char → Bool
  | [], _ => true
  | _ :: _, [] => false
  | x :: xs, y :: ys => x = y && leadsWith xs ys

/-- Substring search over char lists. -/
def containsCB (sub : List Char) : List Char → Bool
  | [] => leadsWith sub []
  | y :: rest => leadsWith sub (y :: rest) || containsCB sub rest

/-- Python `sub in s` (substring containment). -/
def strContains (s sub : String) : Bool := containsCB sub.data s.data

/-- Does the name start with an underscore (Python `name.startswith('_')`)? -/
def startsUnderscore (name : String) : Bool :=
  match name.data with
  | '_' :: _ => true
  | _ => false

/-- Insertion step of the string sort used to model Python `sorted`. -/
def insertStr (x : String) : List String → List String
  | [] => [x]
  | y :: rest => if strLeB x y then x :: y :: rest else y :: insertStr x rest

/-- Sort a list of strings in Python's `sorted` (code-point) order. -/
def sortStrs : List String → List String
  | [] => []
  | x :: rest => insertStr x (sortStrs rest)

/-! ## Data model: values, members, errors, class info -/

/-- Runtime values flowing through the context: Python strings, ints, lists
and dicts (a dict is its `items()` list in insertion order). -/
inductive Value where
  | str : String → Value
  | nat : Nat → Value
  | list : List Value → Value
  | dict : List (String × Value) → Value

/-- `str(value)` for the scalar cases serialized as element text; list/dict
reprs are never rendered by the claims and get placeholder forms. -/
def valueStr : Value → String
  | .str s => s
  | .nat n => toString n
  | .list _ => "[...]"
  | .dict _ => "\x7b...\x7d"

/-- Exceptions of the engine: `AttributeError` (unbound placeholder, with
its message), `UnimplementedMethodError` of `src/err.py` (carrying the
method name and the class name taken from the raising frame's `self`), and
`TypeError` (calling a non-callable or a method with missing arguments). -/
inductive SpecErr where
  | attributeError (msg : String)
  | unimplMethod (method cls : String)
  | typeError (msg : String)
deriving DecidableEq, Repr

/-- The message `src/err.py` builds for an unimplemented method. -/
def unimplMsg (method cls : String) : String :=
  "Method '" ++ method ++ "' is not implemented in class '" ++ cls ++ "'"

/-- What `getattr(self, name)` yields for one attribute name: a non-callable
value, a zero-argument method (whose invocation yields a value or raises),
or a method whose signature has `n > 0` parameters beyond `self` (never
invoked by the extended pass; a direct call raises `TypeError`). -/
inductive Member where
  | val : Value → Member
  | fn : Except SpecErr Value → Member
  | fnArity : Nat → Member

/-- Source location of a class declaration (`inspect.getsourcefile` +
`inspect.getsourcelines`); absent when inspection raises. -/
structure SrcLoc where
  file : String
  startLine : Nat
  endLine : Nat

/-- One class of the hierarchy: its name, optional docstring, and optional
source location. -/
structure ClassInfo where
  name : String
  doc : Option String
  src : Option SrcLoc

/-- A concrete `Ctx` instance: the leaf class, the proper ancestors that
precede `Ctx` in the MRO (most-derived first — exactly `__mro__[1:]` up to
the `Ctx` sentinel), and the resolved attribute table. -/
structure SpecInstance where
  leaf : ClassInfo
  ancestors : List ClassInfo
  members : List (String × Member)

/-- A resolved context: placeholder name to value, in insertion order. -/
abbrev Ctxt := List (String × Value)

/-- Dict / context lookup (first match). -/
def lookupCtx (c : Ctxt) (k : String) : Option Value :=
  match c with
  | [] => none
  | (k', v) :: rest => if k' = k then some v else lookupCtx rest k

/-- `getattr` lookup in the member table (first match). -/
def lookupMember (inst : SpecInstance) (name : String) : Option Member :=
  match inst.members.find? (fun kv => kv.1 = name) with
  | some kv => some kv.2
  | none => none

/-! ## Template resolver (`Ctx._get_base_template`, `_get_instance_notes`,
`_get_source_info`) -/

/-- `Ctx._get_base_template`: collect the ancestors' docstrings in MRO order
(most-derived ancestor first), `cleandoc` each, and join them with a blank
line; empty string when no ancestor has a docstring. -/
def getBaseTemplate (inst : SpecInstance) : String :=
  let templates := (inst.ancestors.filterMap (fun c => c.doc)).map cleandoc
  match templates with
  | [] => ""
  | ts => joinSep "\n\n" ts

/-- `Ctx._get_instance_notes`: the leaf class's own cleaned docstring. -/
def getInstanceNotes (inst : SpecInstance) : String :=
  match inst.leaf.doc with
  | some d => cleandoc d
  | none => ""

/-- Result of `Ctx._get_source_info` (for `self.__class__`). -/
structure SourceInfo where
  file : String
  startLine : Nat
  endLine : Nat
  name : String

/-- `Ctx._get_source_info()`: file and line range of the **leaf** class
(`self.__class__`), `none` when source inspection fails. -/
def getSourceInfo (inst : SpecInstance) : Option SourceInfo :=
  match inst.leaf.src with
  | some s => some ⟨s.file, s.startLine, s.endLine, inst.leaf.name⟩
  | none => none

/-- `_do_ctx`'s `combined = f"{doc}\n{notes}"`: the string scanned for
placeholder variables. -/
def combinedDoc (inst : SpecInstance) : String :=
  getBaseTemplate inst ++ "\n" ++ getInstanceNotes inst

/-! ## Variable extraction and rendering (jinja collaborator model) -/

/-- Scanner state machine extracting the identifiers written between double
braces; the optional accumulator holds the chars read since an opening
double brace. -/
def scanVarsAux : List Char → Option (List Char) → List String
  | [], none => []
  | [], some acc => [trimStr (String.mk acc)]
  | [_], none => []
  | [c1], some acc => [trimStr (String.mk (acc ++ [c1]))]
  | c1 :: c2 :: rest, none =>
    if c1 = '\x7b' ∧ c2 = '\x7b' then scanVarsAux rest (some [])
    else scanVarsAux (c2 :: rest) none
  | c1 :: c2 :: rest, some acc =>
    if c1 = '\x7d' ∧ c2 = '\x7d' then trimStr (String.mk acc) :: scanVarsAux rest none
    else scanVarsAux (c2 :: rest) (some (acc ++ [c1]))

/-- `jinja2.meta.find_undeclared_variables` model: the set (deduplicated
list) of distinct placeholder identifiers of a template. -/
def findVars (s : String) : List String := (scanVarsAux s.data none).dedup

/-- Render one placeholder: the looked-up value's string form, or the empty
string for an unknown identifier (jinja's default `Undefined`). -/
def lookupRendered (c : Ctxt) (acc : List Char) : List Char :=
  match lookupCtx c (trimStr (String.mk acc)) with
  | some v => (valueStr v).data
  | none => []

/-- Substitution engine for `Template(...).render(**context)` on
variable-interpolation templates, mirroring the scanner's state machine. -/
def renderAux (c : Ctxt) : List Char → Option (List Char) → List Char
  | [], none => []
  | [], some acc => lookupRendered c acc
  | [c1], none => [c1]
  | [c1], some acc => lookupRendered c (acc ++ [c1])
  | c1 :: c2 :: rest, none =>
    if c1 = '\x7b' ∧ c2 = '\x7b' then renderAux c rest (some [])
    else c1 :: renderAux c (c2 :: rest) none
  | c1 :: c2 :: rest, some acc =>
    if c1 = '\x7d' ∧ c2 = '\x7d' then lookupRendered c acc ++ renderAux c rest none
    else renderAux c (c2 :: rest) (some (acc ++ [c1]))

/-- `Template(tpl).render(**c)`. -/
def renderVars (tpl : String) (c : Ctxt) : String :=
  String.mk (renderAux c tpl.data none)

/-! ## Variable binder (`Ctx._do_ctx`) -/

/-- The error message `get_member` raises for an unbound placeholder: it
names the placeholder, the **concrete** class (`self.__class__.__name__`),
that class's source location (`self._get_source_info()`), and the accessor
the implementer must add. -/
def mkAttrErrMsg (var : String) (inst : SpecInstance) : String :=
  let methodName := dashTr var
  let loc := match getSourceInfo inst with
    | some s => s.file ++ ":" ++ toString s.startLine
    | none => "unknown location"
  "\nThe variable '\x7b\x7b" ++ var ++ "\x7d\x7d' was found in a docstring template for class '"
    ++ inst.leaf.name ++ "',\ndefined at " ++ loc
    ++ ",\nbut no matching method or attribute '" ++ methodName
    ++ "' was found.\n\nFIX: implement 'def " ++ methodName ++ "(self):' in class '"
    ++ inst.leaf.name ++ "' or one of its bases.\n"

/-- `get_member` of `_do_ctx`: translate dashes, look the accessor up, call
it if callable (recording the invocation) or take its value; raise the
descriptive `AttributeError` when absent. -/
def getMember (inst : SpecInstance) (var : String) : Except SpecErr (Value × List String) :=
  let methodName := dashTr var
  match lookupMember inst methodName with
  | some (.val v) => .ok (v, [])
  | some (.fn (.ok v)) => .ok (v, [methodName])
  | some (.fn (.error e)) => .error e
  | some (.fnArity _) =>
      .error (.typeError (methodName ++ "() missing required positional arguments"))
  | none => .error (.attributeError (mkAttrErrMsg var inst))

/-- The `fields` special case: when the template references `fields` and the
instance has a `fields` attribute, call `self.fields()`; when the attribute
is absent nothing happens (no error). -/
def fieldsStep (inst : SpecInstance) (expected : List String) :
    Except SpecErr (Ctxt × List String) :=
  if expected.contains "fields" then
    match lookupMember inst "fields" with
    | none => .ok ([], [])
    | some (.fn (.ok v)) => .ok ([("fields", v)], ["fields"])
    | some (.fn (.error e)) => .error e
    | some (.fnArity _) =>
        .error (.typeError "fields() missing required positional arguments")
    | some (.val _) => .error (.typeError "'fields' object is not callable")
  else .ok ([], [])

/-- The `for var in sorted(expected_vars)` loop of `_do_ctx`, threading the
context and the invocation log; `fields` is skipped. -/
def ctxVarsLoop (inst : SpecInstance) : List String → Ctxt → Except SpecErr (Ctxt × List String)
  | [], c => .ok (c, [])
  | var :: rest, c =>
    if var = "fields" then ctxVarsLoop inst rest c
    else
      match getMember inst var with
      | .error e => .error e
      | .ok (v, lg) =>
        match ctxVarsLoop inst rest (c ++ [(var, v)]) with
        | .ok (c', lg') => .ok (c', lg ++ lg')
        | .error e => .error e

/-- Names in the lists `_do_ctx` explicitly excludes from the extended pass. -/
def excludedNames1 : List String := ["ctx", "render", "render_xml", "to_xml_element"]

/-- Second (redundant) exclusion list of `_do_ctx`. -/
def excludedNames2 : List String :=
  ["_get_base_template", "_get_instance_notes", "_get_source_info", "_to_xml_element"]

/-- Engine-internal attribute names visible via `dir()` on any `Ctx`
instance (all are filtered out by the extended pass). -/
def machineryNames : List String :=
  ["ctx", "render_xml", "to_xml_element", "_do_ctx", "_get_base_template",
   "_get_instance_notes", "_get_source_info", "_in_ctx"]

/-- `sorted(dir(self))`: the sorted, deduplicated attribute names. -/
def dirNames (inst : SpecInstance) : List String :=
  sortStrs ((machineryNames ++ inst.members.map Prod.fst).dedup)

/-- The extended (`template_only=False`) pass of `_do_ctx`: every public
zero-argument member not already in the context is evaluated;
`TypeError`, `ValueError` and `UnimplementedMethodError` are caught and the
member skipped, any other exception propagates. -/
def extMembersLoop (inst : SpecInstance) : List String → Ctxt → Except SpecErr (Ctxt × List String)
  | [], c => .ok (c, [])
  | name :: rest, c =>
    if startsUnderscore name || excludedNames1.contains name
        || excludedNames2.contains name || (lookupCtx c name).isSome then
      extMembersLoop inst rest c
    else
      match lookupMember inst name with
      | none => extMembersLoop inst rest c
      | some (.val v) => extMembersLoop inst rest (c ++ [(name, v)])
      | some (.fnArity _) => extMembersLoop inst rest c
      | some (.fn (.ok v)) =>
          match extMembersLoop inst rest (c ++ [(name, v)]) with
          | .ok (c', lg) => .ok (c', name :: lg)
          | .error e => .error e
      | some (.fn (.error (.attributeError m))) => .error (.attributeError m)
      | some (.fn (.error _)) =>
          match extMembersLoop inst rest c with
          | .ok (c', lg) => .ok (c', name :: lg)
          | .error e => .error e

/-- `Ctx._do_ctx`, instrumented: the resolved context together with the list
of accessor names invoked, in call order. -/
def doCtxFull (inst : SpecInstance) (templateOnly : Bool) :
    Except SpecErr (Ctxt × List String) :=
  match fieldsStep inst (findVars (combinedDoc inst)) with
  | .error e => .error e
  | .ok (c0, lg0) =>
    match ctxVarsLoop inst (sortStrs (findVars (combinedDoc inst))) c0 with
    | .error e => .error e
    | .ok (c1, lg1) =>
      if templateOnly then .ok (c1, lg0 ++ lg1)
      else
        match extMembersLoop inst (dirNames inst) c1 with
        | .error e => .error e
        | .ok (c2, lg2) => .ok (c2, lg0 ++ lg1 ++ lg2)

/-- `Ctx._do_ctx` (value part). -/
def doCtx (inst : SpecInstance) (templateOnly : Bool) : Except SpecErr Ctxt :=
  (doCtxFull inst templateOnly).map Prod.fst

/-! ## Recursion guard (`Ctx.ctx`) -/

/-- The guard wrapper of `Ctx.ctx`, abstracted over the body: when `_in_ctx`
is set return an empty context untouched; otherwise run the body with the
flag set and clear the flag afterwards (the `finally`), whatever the body
did.  Returns the result together with the flag's final state. -/
def ctxGuard (body : Except SpecErr Ctxt) (inCtx : Bool) : Except SpecErr Ctxt × Bool :=
  if inCtx then (.ok [], inCtx) else (body, false)

/-- `Ctx.ctx`: the guard applied to `_do_ctx`. -/
def ctx (inst : SpecInstance) (inCtx : Bool) (templateOnly : Bool) :
    Except SpecErr Ctxt × Bool :=
  ctxGuard (doCtx inst templateOnly) inCtx

/-! ## Structured serializer (`Ctx._to_xml_element`, `Ctx.to_xml_element`) -/

/-- An `xml.etree.ElementTree` element: tag, attributes, text, children. -/
structure XmlElem where
  tag : String
  attrs : List (String × String)
  text : Option String
  children : List XmlElem

/-- Insertion step of the key sort modelling `sorted(value.keys())`. -/
def insertPair (p : String × Value) : List (String × Value) → List (String × Value)
  | [] => [p]
  | q :: rest => if strLeB p.1 q.1 then p :: q :: rest else q :: insertPair p rest

/-- Sort dict entries by key in Python's `sorted` order. -/
def sortPairs : List (String × Value) → List (String × Value)
  | [] => []
  | p :: rest => insertPair p (sortPairs rest)

theorem insertPair_perm (p : String × Value) (l : List (String × Value)) :
    (insertPair p l).Perm (p :: l) := by
  induction l with
  | nil => simp [insertPair]
  | cons q rest ih =>
    simp only [insertPair]
    split
    · exact List.Perm.refl _
    · exact (List.Perm.cons q ih).trans (List.Perm.swap p q rest)

theorem sortPairs_perm (l : List (String × Value)) : (sortPairs l).Perm l := by
  induction l with
  | nil => exact List.Perm.refl _
  | cons p rest ih =>
    exact (insertPair_perm p (sortPairs rest)).trans (List.Perm.cons p ih)

/-- The two keys `_to_xml_element` silently skips in every dict. -/
def isLineKey (k : String) : Bool := k = "start_line" || k = "end_line"

/-- `Ctx._to_xml_element(name, value)`: dicts become children in sorted key
order with `start_line`/`end_line` entries skipped and dashes in keys
translated, lists become repeated `item` children in order, scalars become
text content. -/
def toXmlChild (name : String) (v : Value) : XmlElem :=
  match v with
  | .str s => ⟨name, [], some s, []⟩
  | .nat n => ⟨name, [], some (toString n), []⟩
  | .list l => ⟨name, [], none, l.attach.map (fun x => toXmlChild "item" x.1)⟩
  | .dict kvs => ⟨name, [], none,
      ((sortPairs kvs).filter (fun kv => !(isLineKey kv.1))).attach.map
        (fun kv => toXmlChild (dashTr kv.1.1) kv.1.2)⟩
termination_by sizeOf v
decreasing_by
  · rename_i l
    have := List.sizeOf_lt_of_mem x.2
    simp only [Value.list.sizeOf_spec]
    omega
  · rename_i kvs
    have h2 : kv.1 ∈ sortPairs kvs := List.mem_of_mem_filter kv.2
    have h3 : kv.1 ∈ kvs := (sortPairs_perm kvs).mem_iff.mp h2
    have h4 := List.sizeOf_lt_of_mem h3
    have h5 : sizeOf kv.1.2 < sizeOf kv.1 := by
      obtain ⟨a, b⟩ := kv.1
      simp
    simp only [Value.dict.sizeOf_spec]
    omega

@[simp]
theorem toXmlChild_str (name s : String) :
    toXmlChild name (.str s) = ⟨name, [], some s, []⟩ := by
  rw [toXmlChild]

@[simp]
theorem toXmlChild_nat (name : String) (n : Nat) :
    toXmlChild name (.nat n) = ⟨name, [], some (toString n), []⟩ := by
  rw [toXmlChild]

@[simp]
theorem toXmlChild_list (name : String) (l : List Value) :
    toXmlChild name (.list l) = ⟨name, [], none, l.map (toXmlChild "item")⟩ := by
  rw [toXmlChild]
  congr 1
  exact List.attach_map_val l (toXmlChild "item")

@[simp]
theorem toXmlChild_dict (name : String) (kvs : List (String × Value)) :
    toXmlChild name (.dict kvs) = ⟨name, [], none,
      ((sortPairs kvs).filter (fun kv => !(isLineKey kv.1))).map
        (fun kv => toXmlChild (dashTr kv.1) kv.2)⟩ := by
  rw [toXmlChild]
  congr 1
  exact List.attach_map_val ((sortPairs kvs).filter (fun kv => !(isLineKey kv.1)))
    (fun kv => toXmlChild (dashTr kv.1) kv.2)

/-- The optional `source` child of `to_xml_element`: present when
`_get_source_info` succeeds, carrying the concrete type name and the
absolute source file — line numbers are deliberately not serialized. -/
def srcChildrenOf (inst : SpecInstance) : List XmlElem :=
  match getSourceInfo inst with
  | some s => [⟨"source", [("target", s.name), ("file", s.file)], none, []⟩]
  | none => []

/-- The optional `description` child: present only when the rendered,
stripped template body is nonempty. -/
def descChildrenOf (inst : SpecInstance) (ctxData : Ctxt) : List XmlElem :=
  if trimStr (renderVars (getBaseTemplate inst) ctxData) = "" then []
  else [⟨"description", [], some (trimStr (renderVars (getBaseTemplate inst) ctxData)), []⟩]

/-- The optional `notes` child: present when the leaf docstring is nonempty,
its text rendered against the same template context. -/
def notesChildrenOf (inst : SpecInstance) (ctxData : Ctxt) : List XmlElem :=
  if getInstanceNotes inst = "" then []
  else [⟨"notes", [], some (trimStr (renderVars (getInstanceNotes inst) ctxData)), []⟩]

/-- The `context` child: the extended context serialized in sorted key order
with dashes in keys translated. -/
def contextChildOf (allCtx : Ctxt) : XmlElem :=
  ⟨"context", [], none, (sortPairs allCtx).map (fun kv => toXmlChild (dashTr kv.1) kv.2)⟩

/-- `Ctx.to_xml_element`, instrumented with the accessor-invocation log.
The root `specification` element carries the concrete type name; then come
the optional `source` child, the optional `description` child (the rendered,
stripped template body), the optional `notes` child, and the `context`
child.  The method calls `self.ctx()` twice — once template-only for the
rendered body and notes, once extended for the context node — with the
`_in_ctx` guard initially clear, so both calls run `_do_ctx`. -/
def toXmlElementFull (inst : SpecInstance) : Except SpecErr (XmlElem × List String) :=
  match doCtxFull inst true with
  | .error e => .error e
  | .ok (ctxData, lg1) =>
    match doCtxFull inst false with
    | .error e => .error e
    | .ok (allCtx, lg2) =>
      .ok (⟨"specification", [("type", inst.leaf.name)], none,
            srcChildrenOf inst ++ descChildrenOf inst ctxData
              ++ notesChildrenOf inst ctxData ++ [contextChildOf allCtx]⟩,
           lg1 ++ lg2)

/-- `Ctx.to_xml_element` (element part). -/
def toXmlElement (inst : SpecInstance) : Except SpecErr XmlElem :=
  (toXmlElementFull inst).map Prod.fst

/-! ## Observers used by the theorems -/

/-- Observe the `AttributeError` message of a failed computation. -/
def attrErrOf {α : Type} : Except SpecErr α → Option String
  | .error (.attributeError m) => some m
  | _ => none

/-- Observe the `UnimplementedMethodError` payload of a failed computation. -/
def unimplErrOf {α : Type} : Except SpecErr α → Option (String × String)
  | .error (.unimplMethod m c) => some (m, c)
  | _ => none

/-- Success test (`Except.isOk` specialised to the engine's error type). -/
def okB {α : Type} : Except SpecErr α → Bool
  | .ok _ => true
  | .error _ => false

/-! ## String lemmas -/

theorem strData_append (a b : String) : (a ++ b).data = a.data ++ b.data := by
  cases a
  cases b
  rfl

theorem leadsWith_append (x y : List Char) : leadsWith x (x ++ y) = true := by
  induction x with
  | nil => rfl
  | cons c rest ih => simpa [leadsWith] using ih

theorem containsCB_here (sub l : List Char) (h : leadsWith sub l = true) :
    containsCB sub l = true := by
  cases l with
  | nil =>
    cases sub with
    | nil => rfl
    | cons x xs => simp [leadsWith] at h
  | cons y rest => simp [containsCB, h]

theorem containsCB_of_split (sub a c : List Char) :
    containsCB sub (a ++ sub ++ c) = true := by
  induction a with
  | nil =>
    simp only [List.nil_append]
    exact containsCB_here sub (sub ++ c) (leadsWith_append sub c)
  | cons x xs ih =>
    have hsplit : (x :: xs) ++ sub ++ c = x :: (xs ++ sub ++ c) := by simp
    rw [hsplit]
    show (leadsWith sub (x :: (xs ++ sub ++ c)) || containsCB sub (xs ++ sub ++ c)) = true
    rw [ih]
    simp

theorem strContains_intro (s sub : String) (a c : List Char)
    (h : s.data = a ++ sub.data ++ c) : strContains s sub = true := by
  unfold strContains
  rw [h]
  exact containsCB_of_split sub.data a c

/-! ## Order lemmas for the key sort -/

theorem cmpLe_total (a b : List Char) : cmpLe a b = true ∨ cmpLe b a = true := by
  induction a generalizing b with
  | nil => left; rfl
  | cons x xs ih =>
    cases b with
    | nil => right; rfl
    | cons y ys =>
      by_cases hxy : x = y
      · subst hxy
        rcases ih ys with h | h
        · left; simpa [cmpLe] using h
        · right; simpa [cmpLe] using h
      · rcases lt_trichotomy x y with h | h | h
        · left; simp [cmpLe, hxy, h]
        · exact absurd h hxy
        · right
          have hyx : ¬(y = x) := fun hh => hxy hh.symm
          simp [cmpLe, hyx, h]

theorem cmpLe_trans {a b c : List Char} (h1 : cmpLe a b = true) (h2 : cmpLe b c = true) :
    cmpLe a c = true := by
  induction a generalizing b c with
  | nil => rfl
  | cons x xs ih =>
    cases b with
    | nil => simp [cmpLe] at h1
    | cons y ys =>
      cases c with
      | nil => simp [cmpLe] at h2
      | cons z zs =>
        by_cases hxy : x = y
        · subst hxy
          by_cases hyz : x = z
          · subst hyz
            simp only [cmpLe, if_pos rfl] at h1 h2 ⊢
            exact ih h1 h2
          · simp only [cmpLe, if_pos rfl] at h1
            simp only [cmpLe, if_neg hyz] at h2 ⊢
            exact h2
        · simp only [cmpLe, if_neg hxy] at h1
          by_cases hyz : y = z
          · subst hyz
            simp [cmpLe, hxy, decide_eq_true_eq.mp h1]
          · simp only [cmpLe, if_neg hyz] at h2
            have hxz : x < z := lt_trans (decide_eq_true_eq.mp h1) (decide_eq_true_eq.mp h2)
            have : ¬(x = z) := ne_of_lt hxz
            simp [cmpLe, this, hxz]

theorem cmpLe_antisymm {a b : List Char} (h1 : cmpLe a b = true) (h2 : cmpLe b a = true) :
    a = b := by
  induction a generalizing b with
  | nil =>
    cases b with
    | nil => rfl
    | cons y ys => simp [cmpLe] at h2
  | cons x xs ih =>
    cases b with
    | nil => simp [cmpLe] at h1
    | cons y ys =>
      by_cases hxy : x = y
      · subst hxy
        simp only [cmpLe, if_pos rfl] at h1 h2
        rw [ih h1 h2]
      · simp only [cmpLe, if_neg hxy] at h1
        have hyx : ¬(y = x) := fun hh => hxy hh.symm
        simp only [cmpLe, if_neg hyx] at h2
        exact absurd (lt_trans (decide_eq_true_eq.mp h1) (decide_eq_true_eq.mp h2))
          (lt_irrefl x)

theorem strLeB_total (a b : String) : strLeB a b = true ∨ strLeB b a = true :=
  cmpLe_total a.data b.data

theorem strLeB_trans {a b c : String} (h1 : strLeB a b = true) (h2 : strLeB b c = true) :
    strLeB a c = true :=
  cmpLe_trans h1 h2

theorem strLeB_antisymm {a b : String} (h1 : strLeB a b = true) (h2 : strLeB b a = true) :
    a = b :=
  String.ext (cmpLe_antisymm h1 h2)

/-! ## Sortedness of the serializer's key order -/

/-- Key order on dict entries (the order `sorted(value.keys())` induces). -/
def pairLe (p q : String × Value) : Prop := strLeB p.1 q.1 = true

/-- Strict key order on dict entries. -/
def pairLt (p q : String × Value) : Prop := strLeB p.1 q.1 = true ∧ p.1 ≠ q.1

theorem insertPair_sorted (p : String × Value) (l : List (String × Value))
    (h : List.Sorted pairLe l) : List.Sorted pairLe (insertPair p l) := by
  induction l with
  | nil => simp [insertPair, List.Sorted]
  | cons q rest ih =>
    rw [List.sorted_cons] at h
    obtain ⟨hq, hrest⟩ := h
    by_cases hle : strLeB p.1 q.1 = true
    · simp only [insertPair, if_pos hle]
      rw [List.sorted_cons]
      constructor
      · intro b hb
        rcases List.mem_cons.mp hb with hb | hb
        · subst hb; exact hle
        · exact strLeB_trans hle (hq b hb)
      · rw [List.sorted_cons]
        exact ⟨hq, hrest⟩
    · simp only [insertPair, if_neg hle]
      rw [List.sorted_cons]
      constructor
      · intro b hb
        have hmem := (insertPair_perm p rest).mem_iff.mp hb
        rcases List.mem_cons.mp hmem with hb' | hb'
        · rw [hb']
          rcases strLeB_total p.1 q.1 with h' | h'
          · exact absurd h' hle
          · exact h'
        · exact hq b hb'
      · exact ih hrest

theorem sortPairs_sorted (l : List (String × Value)) : List.Sorted pairLe (sortPairs l) := by
  induction l with
  | nil => simp [sortPairs, List.Sorted]
  | cons p rest ih => exact insertPair_sorted p (sortPairs rest) ih

theorem sorted_lt_of_nodup_keys {l : List (String × Value)}
    (hs : List.Sorted pairLe l) (hnd : (l.map Prod.fst).Nodup) :
    List.Sorted pairLt l := by
  have hne : List.Pairwise (fun p q : String × Value => p.1 ≠ q.1) l :=
    List.pairwise_map.mp hnd
  exact (List.Pairwise.and hs hne).imp (fun h => ⟨h.1, h.2⟩)

theorem sortPairs_eq_of_perm {l₁ l₂ : List (String × Value)}
    (hp : l₁.Perm l₂) (hnd : (l₁.map Prod.fst).Nodup) :
    sortPairs l₁ = sortPairs l₂ := by
  have hperm : (sortPairs l₁).Perm (sortPairs l₂) :=
    (sortPairs_perm l₁).trans (hp.trans (sortPairs_perm l₂).symm)
  have hnd1 : ((sortPairs l₁).map Prod.fst).Nodup :=
    ((sortPairs_perm l₁).map Prod.fst).nodup_iff.mpr hnd
  have hnd2 : ((sortPairs l₂).map Prod.fst).Nodup :=
    ((sortPairs_perm l₂).map Prod.fst).nodup_iff.mpr ((hp.map Prod.fst).nodup_iff.mp hnd)
  haveI : IsAntisymm (String × Value) pairLt :=
    ⟨fun a b h h' => absurd (strLeB_antisymm h.1 h'.1) h.2⟩
  exact List.eq_of_perm_of_sorted hperm
    (sorted_lt_of_nodup_keys (sortPairs_sorted l₁) hnd1)
    (sorted_lt_of_nodup_keys (sortPairs_sorted l₂) hnd2)

/-! ## Deep serialization equivalence

Two values are `VEq`-related when they agree up to reordering the entries
of `dict` nodes at any nesting depth (restricted to nodes with distinct
keys, which Python dict iteration orders always have).  `_to_xml_element`
is invariant under this relation, which makes the sorted-key property of
C4 genuinely recursive: a mapping's insertion/iteration order is
irrelevant at every nesting level of the serialized document. -/

mutual

/-- Deep equality of values up to permuting dict entries, at any depth. -/
inductive VEq : Value → Value → Prop where
  | str (s : String) : VEq (.str s) (.str s)
  | nat (n : Nat) : VEq (.nat n) (.nat n)
  | list {l l' : List Value} : VEqList l l' → VEq (.list l) (.list l')
  | dict {kvs mid kvs' : List (String × Value)} :
      VEqEntries kvs mid → mid.Perm kvs' → (kvs.map Prod.fst).Nodup →
      VEq (.dict kvs) (.dict kvs')

/-- Pointwise `VEq` on lists of values. -/
inductive VEqList : List Value → List Value → Prop where
  | nil : VEqList [] []
  | cons {v v' : Value} {l l' : List Value} :
      VEq v v' → VEqList l l' → VEqList (v :: l) (v' :: l')

/-- Pointwise key equality and `VEq` on dict entry lists. -/
inductive VEqEntries : List (String × Value) → List (String × Value) → Prop where
  | nil : VEqEntries [] []
  | cons {p q : String × Value} {l m : List (String × Value)} :
      p.1 = q.1 → VEq p.2 q.2 → VEqEntries l m → VEqEntries (p :: l) (q :: m)

end

theorem vEqEntries_keys {l m : List (String × Value)} (h : VEqEntries l m) :
    l.map Prod.fst = m.map Prod.fst := by
  induction l generalizing m with
  | nil => cases h; rfl
  | cons p l ih =>
    cases h with
    | cons hk hv ht => simp only [List.map_cons, hk, ih ht]

theorem insertPair_vEqEntries {p q : String × Value} {l m : List (String × Value)}
    (hk : p.1 = q.1) (hv : VEq p.2 q.2) (h : VEqEntries l m) :
    VEqEntries (insertPair p l) (insertPair q m) := by
  induction l generalizing m with
  | nil =>
    cases h
    exact VEqEntries.cons hk hv VEqEntries.nil
  | cons p' l ih =>
    cases h with
    | cons hk' hv' ht =>
      rename_i q' m'
      simp only [insertPair]
      rw [hk, hk']
      by_cases hc : strLeB q.1 q'.1 = true
      · rw [if_pos hc, if_pos hc]
        exact VEqEntries.cons hk hv (VEqEntries.cons hk' hv' ht)
      · rw [if_neg hc, if_neg hc]
        exact VEqEntries.cons hk' hv' (ih ht)

theorem sortPairs_vEqEntries {l m : List (String × Value)} (h : VEqEntries l m) :
    VEqEntries (sortPairs l) (sortPairs m) := by
  induction l generalizing m with
  | nil => cases h; exact VEqEntries.nil
  | cons p l ih =>
    cases h with
    | cons hk hv ht =>
      simp only [sortPairs]
      exact insertPair_vEqEntries hk hv (ih ht)

theorem filter_vEqEntries {l m : List (String × Value)} (h : VEqEntries l m) :
    VEqEntries (l.filter (fun kv => !(isLineKey kv.1)))
      (m.filter (fun kv => !(isLineKey kv.1))) := by
  induction l generalizing m with
  | nil => cases h; exact VEqEntries.nil
  | cons p l ih =>
    cases h with
    | cons hk hv ht =>
      rename_i q m'
      simp only [List.filter_cons, hk]
      by_cases hc : (!(isLineKey q.1)) = true
      · rw [if_pos hc, if_pos hc]
        exact VEqEntries.cons hk hv (ih ht)
      · rw [if_neg hc, if_neg hc]
        exact ih ht

theorem toXmlChild_congr_aux :
    ∀ (n : Nat) (v v' : Value), sizeOf v ≤ n → VEq v v' →
      ∀ name, toXmlChild name v = toXmlChild name v' := by
  intro n
  induction n with
  | zero =>
    intro v v' hsz _ name
    exfalso
    cases v <;>
      simp only [Value.str.sizeOf_spec, Value.nat.sizeOf_spec, Value.list.sizeOf_spec,
        Value.dict.sizeOf_spec] at hsz <;>
      omega
  | succ n ih =>
    intro v v' hsz hveq name
    cases hveq with
    | str s => rfl
    | nat m => rfl
    | list hl =>
      rename_i l l'
      rw [toXmlChild_list, toXmlChild_list]
      have hlsz : sizeOf l ≤ n := by
        simp only [Value.list.sizeOf_spec] at hsz
        omega
      have hmap : ∀ (a b : List Value), VEqList a b → sizeOf a ≤ n →
          a.map (toXmlChild "item") = b.map (toXmlChild "item") := by
        intro a
        induction a with
        | nil =>
          intro b hb _
          cases hb
          rfl
        | cons v₀ a ihl =>
          intro b hb hbsz
          cases hb with
          | cons hv ht =>
            rename_i v₀' b'
            have h1 : sizeOf v₀ ≤ n := by
              simp only [List.cons.sizeOf_spec] at hbsz
              omega
            have h2 : sizeOf a ≤ n := by
              simp only [List.cons.sizeOf_spec] at hbsz
              omega
            simp only [List.map_cons]
            rw [ih v₀ v₀' h1 hv "item", ihl b' ht h2]
      rw [hmap l l' hl hlsz]
    | dict hf hp hnd =>
      rename_i kvs mid kvs'
      rw [toXmlChild_dict, toXmlChild_dict]
      have hkeys : kvs.map Prod.fst = mid.map Prod.fst := vEqEntries_keys hf
      have hndm : (mid.map Prod.fst).Nodup := hkeys ▸ hnd
      rw [← sortPairs_eq_of_perm hp hndm]
      have hent : VEqEntries ((sortPairs kvs).filter (fun kv => !(isLineKey kv.1)))
          ((sortPairs mid).filter (fun kv => !(isLineKey kv.1))) :=
        filter_vEqEntries (sortPairs_vEqEntries hf)
      have hsub : ∀ p ∈ (sortPairs kvs).filter (fun kv => !(isLineKey kv.1)),
          sizeOf p.2 ≤ n := by
        intro p hpmem
        have h2 : p ∈ sortPairs kvs := List.mem_of_mem_filter hpmem
        have h3 : p ∈ kvs := (sortPairs_perm kvs).mem_iff.mp h2
        have h4 := List.sizeOf_lt_of_mem h3
        have h5 : sizeOf p.2 < sizeOf p := by
          obtain ⟨a, b⟩ := p
          simp
        simp only [Value.dict.sizeOf_spec] at hsz
        omega
      have hmap2 : ∀ (a b : List (String × Value)), VEqEntries a b →
          (∀ p ∈ a, sizeOf p.2 ≤ n) →
          a.map (fun kv => toXmlChild (dashTr kv.1) kv.2) =
            b.map (fun kv => toXmlChild (dashTr kv.1) kv.2) := by
        intro a
        induction a with
        | nil =>
          intro b hb _
          cases hb
          rfl
        | cons p a ihe =>
          intro b hb hsz'
          cases hb with
          | cons hk hv ht =>
            rename_i q b'
            simp only [List.map_cons]
            rw [hk, ih p.2 q.2 (hsz' p (List.mem_cons_self p a)) hv (dashTr q.1),
              ihe b' ht (fun r hr => hsz' r (List.mem_cons_of_mem p hr))]
      congr 1
      exact hmap2 _ _ hent hsub

/-- `_to_xml_element` is invariant under deep reordering of dict entries:
the serialized element depends only on the value up to `VEq`. -/
theorem toXmlChild_congr {v v' : Value} (h : VEq v v') (name : String) :
    toXmlChild name v = toXmlChild name v' :=
  toXmlChild_congr_aux (sizeOf v) v v' (le_refl _) h name

/-! ## Decidable side conditions used as hypotheses -/

/-- The member bound to a placeholder (if any) evaluates without raising:
its invocation does not raise and it is not a positive-arity method. -/
def memberEvalOkB (inst : SpecInstance) (v : String) : Bool :=
  match lookupMember inst (dashTr v) with
  | some (.fn (.error _)) => false
  | some (.fnArity _) => false
  | _ => true

/-- Every template placeholder other than `fields` is either absent (handled
separately) or evaluates without raising. -/
def allEvalOkB (inst : SpecInstance) : Bool :=
  (findVars (combinedDoc inst)).all (fun v => v == "fields" || memberEvalOkB inst v)

/-- Every template placeholder other than `fields` has a bound member. -/
def allBoundB (inst : SpecInstance) : Bool :=
  (findVars (combinedDoc inst)).all
    (fun v => v == "fields" || (lookupMember inst (dashTr v)).isSome)

/-- The `fields` special-case step completes without raising. -/
def fieldsOkB (inst : SpecInstance) : Bool :=
  okB (fieldsStep inst (findVars (combinedDoc inst)))

/-- The accessor name the template pass records for one placeholder: the
dash-translated accessor, when it is a zero-argument method that returns. -/
def tmplInvoked (inst : SpecInstance) (v : String) : Option String :=
  if v = "fields" then none
  else
    match lookupMember inst (dashTr v) with
    | some (.fn (.ok _)) => some (dashTr v)
    | _ => none

/-- Observe the invocation log of an instrumented computation. -/
def logOf {α : Type} : Except SpecErr (α × List String) → Option (List String)
  | .ok (_, lg) => some lg
  | .error _ => none

/-! ## Context lookup lemmas -/

theorem lookupCtx_append_some {c : Ctxt} {k : String} {v : Value}
    (h : lookupCtx c k = some v) (d : Ctxt) : lookupCtx (c ++ d) k = some v := by
  induction c with
  | nil => simp [lookupCtx] at h
  | cons p rest ih =>
    by_cases hk : p.1 = k
    · simpa [lookupCtx, hk] using h
    · simp only [lookupCtx, if_neg hk] at h ⊢
      exact ih h

theorem lookupCtx_append_isSome {c : Ctxt} {k : String}
    (h : (lookupCtx c k).isSome = true) (d : Ctxt) :
    (lookupCtx (c ++ d) k).isSome = true := by
  obtain ⟨v, hv⟩ := Option.isSome_iff_exists.mp h
  rw [lookupCtx_append_some hv d]
  rfl

theorem lookupCtx_append_none {c : Ctxt} {k k' : String} {v : Value}
    (h : lookupCtx c k = none) (hne : k' ≠ k) :
    lookupCtx (c ++ [(k', v)]) k = none := by
  induction c with
  | nil => simp [lookupCtx, hne]
  | cons p rest ih =>
    by_cases hk : p.1 = k
    · simp [lookupCtx, hk] at h
    · simp only [lookupCtx, if_neg hk] at h ⊢
      exact ih h

theorem lookupCtx_append_self {c : Ctxt} {k : String} {v : Value}
    (h : lookupCtx c k = none) : lookupCtx (c ++ [(k, v)]) k = some v := by
  induction c with
  | nil => simp [lookupCtx]
  | cons p rest ih =>
    by_cases hk : p.1 = k
    · simp [lookupCtx, hk] at h
    · simp only [lookupCtx, if_neg hk] at h ⊢
      exact ih h

/-! ## Template-pass loop lemmas -/

theorem ctxVarsLoop_ok (inst : SpecInstance) (vs : List String) (c : Ctxt)
    (h : ∀ v ∈ vs, v = "fields" ∨ okB (getMember inst v) = true) :
    ∃ r, ctxVarsLoop inst vs c = .ok r := by
  induction vs generalizing c with
  | nil => exact ⟨(c, []), rfl⟩
  | cons v rest ih =>
    by_cases hv : v = "fields"
    · simp only [ctxVarsLoop, if_pos hv]
      exact ih c (fun v' hv' => h v' (List.mem_cons_of_mem v hv'))
    · rcases h v (List.mem_cons_self v rest) with h' | h'
      · exact absurd h' hv
      · match hg : getMember inst v with
        | .error e => rw [hg] at h'; simp [okB] at h'
        | .ok (w, lg) =>
          obtain ⟨⟨c', lg'⟩, hr⟩ := ih (c ++ [(v, w)])
            (fun v' hv' => h v' (List.mem_cons_of_mem v hv'))
          exact ⟨(c', lg ++ lg'), by simp only [ctxVarsLoop, if_neg hv, hg, hr]⟩

theorem ctxVarsLoop_all_ok_of_ok {inst : SpecInstance} {vs : List String} {c : Ctxt}
    {r : Ctxt × List String} (h : ctxVarsLoop inst vs c = .ok r) :
    ∀ v ∈ vs, v ≠ "fields" → okB (getMember inst v) = true := by
  induction vs generalizing c r with
  | nil => intro v hv; simp at hv
  | cons v rest ih =>
    intro v' hv' hne
    simp only [ctxVarsLoop] at h
    split at h
    · rename_i hv
      rcases List.mem_cons.mp hv' with heq | hmem
      · exact absurd (heq.trans hv) hne
      · exact ih h v' hmem hne
    · rename_i hv
      split at h
      · rename_i e hg
        exact absurd h (by simp)
      · rename_i w lg hg
        split at h
        · rename_i c' lg' hr
          rcases List.mem_cons.mp hv' with heq | hmem
          · subst heq
            simp [okB, hg]
          · exact ih hr v' hmem hne
        · exact absurd h (by simp)

theorem ctxVarsLoop_error_attrib {inst : SpecInstance} {vs : List String} {c : Ctxt}
    {e : SpecErr} (h : ctxVarsLoop inst vs c = .error e) :
    ∃ v ∈ vs, v ≠ "fields" ∧ getMember inst v = .error e := by
  induction vs generalizing c with
  | nil => exact absurd h (by simp [ctxVarsLoop])
  | cons v rest ih =>
    simp only [ctxVarsLoop] at h
    split at h
    · rename_i hv
      obtain ⟨v', hv', hne, hg⟩ := ih h
      exact ⟨v', List.mem_cons_of_mem v hv', hne, hg⟩
    · rename_i hv
      split at h
      · rename_i e' hg
        have he : e' = e := by simpa using h
        exact ⟨v, List.mem_cons_self v rest, hv, he ▸ hg⟩
      · rename_i w lg hg
        split at h
        · rename_i c' lg' hr
          exact absurd h (by simp)
        · rename_i e' hr
          have he : e' = e := by simpa using h
          obtain ⟨v', hv', hne, hg'⟩ := ih (he ▸ hr)
          exact ⟨v', List.mem_cons_of_mem v hv', hne, hg'⟩

theorem okPairInj {α : Type} {a a' : α} {b b' : List String}
    (h : (Except.ok (a, b) : Except SpecErr (α × List String)) = .ok (a', b')) :
    a = a' ∧ b = b' := by
  have h1 : (a, b) = (a', b') := by injection h
  exact ⟨congrArg Prod.fst h1, congrArg Prod.snd h1⟩

theorem ctxVarsLoop_lookup_none {inst : SpecInstance} {vs : List String} {c c' : Ctxt}
    {lg : List String} {k : String} (h : ctxVarsLoop inst vs c = .ok (c', lg))
    (hk : lookupCtx c k = none) (hnin : k ∉ vs) : lookupCtx c' k = none := by
  induction vs generalizing c lg with
  | nil =>
    simp only [ctxVarsLoop] at h
    obtain ⟨hc, _⟩ := okPairInj h
    rw [← hc]
    exact hk
  | cons v rest ih =>
    have hkv : v ≠ k := fun he => hnin (he ▸ List.mem_cons_self v rest)
    have hnin' : k ∉ rest := fun hm => hnin (List.mem_cons_of_mem v hm)
    simp only [ctxVarsLoop] at h
    split at h
    · exact ih h hk hnin'
    · split at h
      · exact absurd h (by simp)
      · rename_i w lg₀ hg
        split at h
        · rename_i c'' lg' hr
          obtain ⟨hc, _⟩ := okPairInj h
          subst hc
          exact ih hr (lookupCtx_append_none hk hkv) hnin'
        · exact absurd h (by simp)

theorem ctxVarsLoop_isSome_mono {inst : SpecInstance} {vs : List String} {c c' : Ctxt}
    {lg : List String} {k : String} (h : ctxVarsLoop inst vs c = .ok (c', lg))
    (hk : (lookupCtx c k).isSome = true) : (lookupCtx c' k).isSome = true := by
  induction vs generalizing c lg with
  | nil =>
    simp only [ctxVarsLoop] at h
    obtain ⟨hc, _⟩ := okPairInj h
    rw [← hc]
    exact hk
  | cons v rest ih =>
    simp only [ctxVarsLoop] at h
    split at h
    · exact ih h hk
    · split at h
      · exact absurd h (by simp)
      · rename_i w lg₀ hg
        split at h
        · rename_i c'' lg' hr
          obtain ⟨hc, _⟩ := okPairInj h
          subst hc
          exact ih hr (lookupCtx_append_isSome hk _)
        · exact absurd h (by simp)

theorem ctxVarsLoop_lookup_isSome {inst : SpecInstance} {vs : List String} {c c' : Ctxt}
    {lg : List String} {v : String} (h : ctxVarsLoop inst vs c = .ok (c', lg))
    (hv : v ∈ vs) (hne : v ≠ "fields") : (lookupCtx c' v).isSome = true := by
  induction vs generalizing c lg with
  | nil => simp at hv
  | cons v₀ rest ih =>
    simp only [ctxVarsLoop] at h
    split at h
    · rename_i hv₀
      rcases List.mem_cons.mp hv with heq | hmem
      · exact absurd (heq.trans hv₀) hne
      · exact ih h hmem
    · rename_i hv₀
      split at h
      · exact absurd h (by simp)
      · rename_i w lg₀ hg
        split at h
        · rename_i c'' lg' hr
          obtain ⟨hc, _⟩ := okPairInj h
          subst hc
          rcases List.mem_cons.mp hv with heq | hmem
          · subst heq
            by_cases hin : (lookupCtx c v).isSome = true
            · exact ctxVarsLoop_isSome_mono hr (lookupCtx_append_isSome hin _)
            · have hnone : lookupCtx c v = none := by
                cases hx : lookupCtx c v with
                | none => rfl
                | some _ => rw [hx] at hin; simp at hin
              exact ctxVarsLoop_isSome_mono hr
                (by rw [lookupCtx_append_self hnone]; rfl)
          · exact ih hr hmem
        · exact absurd h (by simp)

theorem ctxVarsLoop_log {inst : SpecInstance} {vs : List String} {c c' : Ctxt}
    {lg : List String} (h : ctxVarsLoop inst vs c = .ok (c', lg)) :
    lg = vs.filterMap (tmplInvoked inst) := by
  induction vs generalizing c c' lg with
  | nil =>
    simp only [ctxVarsLoop] at h
    obtain ⟨_, hlg⟩ := okPairInj h
    simpa using hlg.symm
  | cons v rest ih =>
    simp only [ctxVarsLoop] at h
    split at h
    · rename_i hv
      rw [List.filterMap_cons]
      simp only [tmplInvoked, if_pos hv]
      exact ih h
    · rename_i hv
      split at h
      · exact absurd h (by simp)
      · rename_i w lg₀ hg
        split at h
        · rename_i c'' lg' hr
          obtain ⟨_, hlg⟩ := okPairInj h
          rw [List.filterMap_cons]
          simp only [tmplInvoked, if_neg hv]
          have hlg' := ih hr
          simp only [getMember] at hg
          split at hg
          · rename_i w₀ hm
            have hl0 : lg₀ = [] := (okPairInj hg).2.symm
            rw [hm, ← hlg, hl0, hlg']
            simp
          · rename_i w₀ hm
            have hl0 : lg₀ = [dashTr v] := (okPairInj hg).2.symm
            rw [hm, ← hlg, hl0, hlg']
            simp
          · exact absurd hg (by simp)
          · exact absurd hg (by simp)
          · exact absurd hg (by simp)
        · exact absurd h (by simp)

/-! ## Sorted-variable list facts -/

theorem insertStr_perm (x : String) (l : List String) : (insertStr x l).Perm (x :: l) := by
  induction l with
  | nil => simp [insertStr]
  | cons y rest ih =>
    simp only [insertStr]
    split
    · exact List.Perm.refl _
    · exact (List.Perm.cons y ih).trans (List.Perm.swap x y rest)

theorem sortStrs_perm (l : List String) : (sortStrs l).Perm l := by
  induction l with
  | nil => exact List.Perm.refl _
  | cons x rest ih =>
    exact (insertStr_perm x (sortStrs rest)).trans (List.Perm.cons x ih)

theorem mem_sortStrs {v : String} {l : List String} : v ∈ sortStrs l ↔ v ∈ l :=
  (sortStrs_perm l).mem_iff

theorem findVars_nodup (s : String) : (findVars s).Nodup := List.nodup_dedup _

/-! ## `fields` step lemmas -/

theorem fieldsStep_of_not_mem {inst : SpecInstance} {expected : List String}
    (h : "fields" ∉ expected) : fieldsStep inst expected = .ok ([], []) := by
  have hc : ¬ expected.contains "fields" = true := by simpa using h
  unfold fieldsStep
  rw [if_neg hc]

theorem fieldsStep_of_absent {inst : SpecInstance} {expected : List String}
    (h : lookupMember inst "fields" = none) : fieldsStep inst expected = .ok ([], []) := by
  unfold fieldsStep
  by_cases hm : expected.contains "fields" = true
  · rw [if_pos hm, h]
  · rw [if_neg hm]

theorem fieldsStep_lookup_of_ok {inst : SpecInstance} {expected : List String}
    {c₀ : Ctxt} {lg₀ : List String} (h : fieldsStep inst expected = .ok (c₀, lg₀))
    {k : String} (hk : k ≠ "fields") : lookupCtx c₀ k = none := by
  revert h
  unfold fieldsStep
  split
  · split
    · intro h
      obtain ⟨hc, _⟩ := okPairInj h
      rw [← hc]
      rfl
    · intro h
      obtain ⟨hc, _⟩ := okPairInj h
      rw [← hc]
      have hne : ("fields" : String) ≠ k := fun he => hk he.symm
      simp [lookupCtx, hne]
    · intro h; exact absurd h (by simp)
    · intro h; exact absurd h (by simp)
    · intro h; exact absurd h (by simp)
  · intro h
    obtain ⟨hc, _⟩ := okPairInj h
    rw [← hc]
    rfl

/-! ## Extended-pass loop lemmas -/

theorem lookupCtx_append_ne {c : Ctxt} {k k' : String} {v : Value} (hne : k' ≠ k) :
    lookupCtx (c ++ [(k', v)]) k = lookupCtx c k := by
  induction c with
  | nil => simp [lookupCtx, hne]
  | cons p rest ih =>
    by_cases hk : p.1 = k
    · simp [lookupCtx, hk]
    · simp only [lookupCtx, if_neg hk, List.cons_append]
      exact ih

theorem extLoop_fnerr_preserved {inst : SpecInstance} {names : List String} {c c' : Ctxt}
    {lg : List String} {name : String} {e : SpecErr}
    (h : extMembersLoop inst names c = .ok (c', lg))
    (hm : lookupMember inst name = some (.fn (.error e))) :
    lookupCtx c' name = lookupCtx c name := by
  induction names generalizing c lg with
  | nil =>
    simp only [extMembersLoop] at h
    obtain ⟨hc, _⟩ := okPairInj h
    rw [← hc]
  | cons n rest ih =>
    simp only [extMembersLoop] at h
    split at h
    · exact ih h
    · rename_i hcond
      split at h
      case _ => exact ih h
      case _ =>
        rename_i v hmem
        have hnn : n ≠ name := fun he => by rw [he, hm] at hmem; cases hmem
        rw [ih h, lookupCtx_append_ne hnn]
      case _ => exact ih h
      case _ =>
        rename_i v hmem
        have hnn : n ≠ name := fun he => by
          rw [he, hm] at hmem
          injection hmem with h1
          injection h1 with h2
          cases h2
        split at h
        · rename_i c'' lg₀ hr
          obtain ⟨hc, _⟩ := okPairInj h
          subst hc
          rw [ih hr, lookupCtx_append_ne hnn]
        · exact absurd h (by simp)
      case _ => exact absurd h (by simp)
      case _ =>
        split at h
        · rename_i c'' lg₀ hr
          obtain ⟨hc, _⟩ := okPairInj h
          subst hc
          exact ih hr
        · exact absurd h (by simp)

theorem extLoop_nomember_preserved {inst : SpecInstance} {names : List String} {c c' : Ctxt}
    {lg : List String} {name : String}
    (h : extMembersLoop inst names c = .ok (c', lg))
    (hm : lookupMember inst name = none) :
    lookupCtx c' name = lookupCtx c name := by
  induction names generalizing c lg with
  | nil =>
    simp only [extMembersLoop] at h
    obtain ⟨hc, _⟩ := okPairInj h
    rw [← hc]
  | cons n rest ih =>
    simp only [extMembersLoop] at h
    split at h
    · exact ih h
    · split at h
      case _ => exact ih h
      case _ =>
        rename_i v hmem
        have hnn : n ≠ name := fun he => by rw [he, hm] at hmem; cases hmem
        rw [ih h, lookupCtx_append_ne hnn]
      case _ => exact ih h
      case _ =>
        rename_i v hmem
        have hnn : n ≠ name := fun he => by rw [he, hm] at hmem; cases hmem
        split at h
        · rename_i c'' lg₀ hr
          obtain ⟨hc, _⟩ := okPairInj h
          subst hc
          rw [ih hr, lookupCtx_append_ne hnn]
        · exact absurd h (by simp)
      case _ => exact absurd h (by simp)
      case _ =>
        split at h
        · rename_i c'' lg₀ hr
          obtain ⟨hc, _⟩ := okPairInj h
          subst hc
          exact ih hr
        · exact absurd h (by simp)

theorem extLoop_unimpl_logged {inst : SpecInstance} {names : List String} {c c' : Ctxt}
    {lg : List String} {name : String} {em ec : String}
    (h : extMembersLoop inst names c = .ok (c', lg))
    (hm : lookupMember inst name = some (.fn (.error (.unimplMethod em ec))))
    (hin : name ∈ names)
    (hu : startsUnderscore name = false)
    (hx1 : name ∉ excludedNames1) (hx2 : name ∉ excludedNames2)
    (hc : lookupCtx c name = none) :
    name ∈ lg := by
  induction names generalizing c lg with
  | nil => simp at hin
  | cons n rest ih =>
    simp only [extMembersLoop] at h
    by_cases hnn : n = name
    · subst hnn
      have hcond : ¬(startsUnderscore n || excludedNames1.contains n
          || excludedNames2.contains n || (lookupCtx c n).isSome) = true := by
        simp [hu, hc]
        exact ⟨fun hmem => absurd hmem hx1, fun hmem => absurd hmem hx2⟩
      rw [if_neg hcond] at h
      rw [hm] at h
      split at h
      · rename_i hq
        simp at hq
      · rename_i v hq
        simp at hq
      · rename_i v hq
        simp at hq
      · rename_i v hq
        simp at hq
      · rename_i v hq
        simp at hq
      · split at h
        · rename_i c'' lg₀ hr
          obtain ⟨_, hlg⟩ := okPairInj h
          rw [← hlg]
          exact List.mem_cons_self n lg₀
        · exact absurd h (by simp)
    · have hin' : name ∈ rest := by
        rcases List.mem_cons.mp hin with he | hmem
        · exact absurd he.symm hnn
        · exact hmem
      split at h
      · exact ih h hin' hc
      · split at h
        case _ => exact ih h hin' hc
        case _ =>
          rename_i v hmem
          exact ih h hin' (by rw [lookupCtx_append_ne hnn]; exact hc)
        case _ => exact ih h hin' hc
        case _ =>
          rename_i v hmem
          split at h
          · rename_i c'' lg₀ hr
            obtain ⟨hceq, hlg⟩ := okPairInj h
            subst hceq
            rw [← hlg]
            exact List.mem_cons_of_mem n
              (ih hr hin' (by rw [lookupCtx_append_ne hnn]; exact hc))
          · exact absurd h (by simp)
        case _ => exact absurd h (by simp)
        case _ =>
          split at h
          · rename_i c'' lg₀ hr
            obtain ⟨hceq, hlg⟩ := okPairInj h
            subst hceq
            rw [← hlg]
            exact List.mem_cons_of_mem n (ih hr hin' hc)
          · exact absurd h (by simp)

theorem extLoop_not_logged {inst : SpecInstance} {names : List String} {c c' : Ctxt}
    {lg : List String} {m : String}
    (h : extMembersLoop inst names c = .ok (c', lg))
    (hm : (lookupCtx c m).isSome = true) :
    m ∉ lg := by
  induction names generalizing c lg with
  | nil =>
    simp only [extMembersLoop] at h
    obtain ⟨_, hlg⟩ := okPairInj h
    rw [← hlg]
    simp
  | cons n rest ih =>
    simp only [extMembersLoop] at h
    split at h
    · exact ih h hm
    · rename_i hcond
      have hnm : n ≠ m := by
        intro he
        subst he
        simp [hm] at hcond
      split at h
      case _ => exact ih h hm
      case _ => exact ih h (lookupCtx_append_isSome hm _)
      case _ => exact ih h hm
      case _ =>
        split at h
        · rename_i c'' lg₀ hr
          obtain ⟨hceq, hlg⟩ := okPairInj h
          subst hceq
          rw [← hlg]
          intro hmem
          rcases List.mem_cons.mp hmem with he | hmem'
          · exact hnm he.symm
          · exact ih hr (lookupCtx_append_isSome hm _) hmem'
        · exact absurd h (by simp)
      case _ => exact absurd h (by simp)
      case _ =>
        split at h
        · rename_i c'' lg₀ hr
          obtain ⟨hceq, hlg⟩ := okPairInj h
          subst hceq
          rw [← hlg]
          intro hmem
          rcases List.mem_cons.mp hmem with he | hmem'
          · exact hnm he.symm
          · exact ih hr hm hmem'
        · exact absurd h (by simp)

/-! ## Counting invocations -/

theorem count_filterMap_unique {α β : Type} [DecidableEq α] [DecidableEq β]
    (f : α → Option β) (vs : List α) (a : α) (b : β)
    (ha : a ∈ vs) (hfa : f a = some b) (hnd : vs.Nodup)
    (huniq : ∀ x ∈ vs, f x = some b → x = a) :
    (vs.filterMap f).count b = 1 := by
  induction vs with
  | nil => simp at ha
  | cons x rest ih =>
    have hndr : rest.Nodup := (List.nodup_cons.mp hnd).2
    have hxnr : x ∉ rest := (List.nodup_cons.mp hnd).1
    by_cases hxa : x = a
    · subst hxa
      rw [List.filterMap_cons, hfa]
      have hzero : (rest.filterMap f).count b = 0 := by
        rw [List.count_eq_zero]
        intro hbmem
        obtain ⟨y, hy, hfy⟩ := List.mem_filterMap.mp hbmem
        exact hxnr ((huniq y (List.mem_cons_of_mem x hy) hfy) ▸ hy)
      rw [List.count_cons_self, hzero]
    · have har : a ∈ rest := by
        rcases List.mem_cons.mp ha with he | hmem
        · exact absurd he.symm hxa
        · exact hmem
      rw [List.filterMap_cons]
      cases hfx : f x with
      | none =>
        exact ih har hndr (fun y hy hfy => huniq y (List.mem_cons_of_mem x hy) hfy)
      | some b' =>
        have hbb : b' ≠ b := by
          intro he
          exact hxa (huniq x (List.mem_cons_self x rest) (he ▸ hfx))
        rw [List.count_cons_of_ne (fun he => hbb he.symm)]
        exact ih har hndr (fun y hy hfy => huniq y (List.mem_cons_of_mem x hy) hfy)

/-! ## `_do_ctx`-level corollaries -/

theorem doCtxFull_true_ok (inst : SpecInstance)
    (hf : fieldsOkB inst = true)
    (hall : ∀ v ∈ findVars (combinedDoc inst), v = "fields" ∨ okB (getMember inst v) = true) :
    ∃ r, doCtxFull inst true = .ok r := by
  unfold fieldsOkB at hf
  cases hfs : fieldsStep inst (findVars (combinedDoc inst)) with
  | error e => rw [hfs] at hf; simp [okB] at hf
  | ok r0 =>
    obtain ⟨c0, lg0⟩ := r0
    obtain ⟨⟨c1, lg1⟩, hr⟩ := ctxVarsLoop_ok inst (sortStrs (findVars (combinedDoc inst))) c0
      (fun v hv => hall v (mem_sortStrs.mp hv))
    exact ⟨(c1, lg0 ++ lg1), by simp only [doCtxFull, hfs, hr, if_pos]⟩

theorem doCtxFull_ok_vars {inst : SpecInstance} {t : Bool} {r : Ctxt × List String}
    (h : doCtxFull inst t = .ok r) :
    ∀ v ∈ findVars (combinedDoc inst), v ≠ "fields" → okB (getMember inst v) = true := by
  unfold doCtxFull at h
  split at h
  · exact absurd h (by simp)
  · rename_i c0 lg0 hfs
    split at h
    · exact absurd h (by simp)
    · rename_i c1 lg1 hr
      intro v hv hne
      exact ctxVarsLoop_all_ok_of_ok hr v (mem_sortStrs.mpr hv) hne

theorem doCtx_missing_attrib (inst : SpecInstance)
    (hf : fieldsOkB inst = true)
    (hev : allEvalOkB inst = true)
    (hmiss : ∃ v ∈ findVars (combinedDoc inst),
      v ≠ "fields" ∧ lookupMember inst (dashTr v) = none) :
    ∃ v₀ ∈ findVars (combinedDoc inst), v₀ ≠ "fields" ∧ lookupMember inst (dashTr v₀) = none ∧
      doCtxFull inst true = .error (.attributeError (mkAttrErrMsg v₀ inst)) := by
  obtain ⟨v, hv, hvne, hvmiss⟩ := hmiss
  unfold fieldsOkB at hf
  cases hfs : fieldsStep inst (findVars (combinedDoc inst)) with
  | error e => rw [hfs] at hf; simp [okB] at hf
  | ok r0 =>
    obtain ⟨c0, lg0⟩ := r0
    cases hloop : ctxVarsLoop inst (sortStrs (findVars (combinedDoc inst))) c0 with
    | ok r1 =>
      have hok := ctxVarsLoop_all_ok_of_ok hloop v (mem_sortStrs.mpr hv) hvne
      have hg : getMember inst v = .error (.attributeError (mkAttrErrMsg v inst)) := by
        simp [getMember, hvmiss]
      rw [hg] at hok
      simp [okB] at hok
    | error e =>
      obtain ⟨v₀, hv₀, hne₀, hg₀⟩ := ctxVarsLoop_error_attrib hloop
      have hv₀' := mem_sortStrs.mp hv₀
      have hmiss₀ : lookupMember inst (dashTr v₀) = none := by
        cases hlm : lookupMember inst (dashTr v₀) with
        | none => rfl
        | some mem =>
          exfalso
          have hevm : (v₀ == "fields" || memberEvalOkB inst v₀) = true :=
            List.all_eq_true.mp hev v₀ hv₀'
          have hbne : (v₀ == "fields") = false := beq_eq_false_iff_ne.mpr hne₀
          rw [hbne, Bool.false_or] at hevm
          cases mem with
          | val w => simp [getMember, hlm] at hg₀
          | fn res =>
            cases res with
            | ok w => simp [getMember, hlm] at hg₀
            | error e' => simp [memberEvalOkB, hlm] at hevm
          | fnArity n => simp [memberEvalOkB, hlm] at hevm
      have herr : e = .attributeError (mkAttrErrMsg v₀ inst) := by
        simp [getMember, hmiss₀] at hg₀
        exact hg₀.symm
      refine ⟨v₀, hv₀', hne₀, hmiss₀, ?_⟩
      rw [herr] at hloop
      simp only [doCtxFull, hfs, hloop]

/-! ## Rendering is the identity on placeholder-free text -/

theorem scanVarsAux_some_ne_nil (cs : List Char) (acc : List Char) :
    scanVarsAux cs (some acc) ≠ [] := by
  induction cs generalizing acc with
  | nil => simp [scanVarsAux]
  | cons c1 rest ih =>
    cases rest with
    | nil => simp [scanVarsAux]
    | cons c2 rest2 =>
      simp only [scanVarsAux]
      by_cases h12 : c1 = '\x7d' ∧ c2 = '\x7d'
      · rw [if_pos h12]
        exact List.cons_ne_nil _ _
      · rw [if_neg h12]
        exact ih _

theorem renderAux_id (c : Ctxt) (cs : List Char) (h : scanVarsAux cs none = []) :
    renderAux c cs none = cs := by
  induction cs with
  | nil => rfl
  | cons c1 rest ih =>
    cases rest with
    | nil => rfl
    | cons c2 rest2 =>
      simp only [scanVarsAux] at h
      simp only [renderAux]
      by_cases h12 : c1 = '\x7b' ∧ c2 = '\x7b'
      · rw [if_pos h12] at h
        exact absurd h (scanVarsAux_some_ne_nil rest2 [])
      · rw [if_neg h12] at h ⊢
        rw [ih h]

theorem renderVars_id {tpl : String} (c : Ctxt) (h : findVars tpl = []) :
    renderVars tpl c = tpl := by
  have hscan : scanVarsAux tpl.data none = [] := (List.dedup_eq_nil _).mp h
  unfold renderVars
  rw [renderAux_id c tpl.data hscan]

/-! ## Serializer-level corollaries -/

theorem toXmlElementFull_error_of_ctx {inst : SpecInstance} {e : SpecErr}
    (h : doCtxFull inst true = .error e) : toXmlElementFull inst = .error e := by
  unfold toXmlElementFull
  rw [h]

theorem toXmlElement_error_of_ctx {inst : SpecInstance} {e : SpecErr}
    (h : doCtxFull inst true = .error e) : toXmlElement inst = .error e := by
  unfold toXmlElement
  rw [toXmlElementFull_error_of_ctx h]
  rfl

/-- The serializer performs exactly two context builds: its invocation log is
the template-only build's log followed by the extended build's log. -/
theorem toXmlElementFull_log {inst : SpecInstance} {el : XmlElem} {lg : List String}
    (h : toXmlElementFull inst = .ok (el, lg)) :
    ∃ cT lgT cF lgF, doCtxFull inst true = .ok (cT, lgT) ∧
      doCtxFull inst false = .ok (cF, lgF) ∧ lg = lgT ++ lgF := by
  unfold toXmlElementFull at h
  split at h
  · exact absurd h (by simp)
  · rename_i cT lgT hT
    split at h
    · exact absurd h (by simp)
    · rename_i cF lgF hF
      obtain ⟨_, hlg⟩ := okPairInj h
      exact ⟨cT, lgT, cF, lgF, hT, hF, hlg.symm⟩

/-! ## Decomposition of the two binder modes -/

theorem doCtxFull_true_decomp {inst : SpecInstance} {c : Ctxt} {lg : List String}
    (h : doCtxFull inst true = .ok (c, lg)) :
    ∃ c0 lg0 lg1,
      fieldsStep inst (findVars (combinedDoc inst)) = .ok (c0, lg0) ∧
      ctxVarsLoop inst (sortStrs (findVars (combinedDoc inst))) c0 = .ok (c, lg1) ∧
      lg = lg0 ++ lg1 := by
  unfold doCtxFull at h
  split at h
  · exact absurd h (by simp)
  · rename_i c0 lg0 hfs
    split at h
    · exact absurd h (by simp)
    · rename_i c1 lg1 hr
      rw [if_pos rfl] at h
      obtain ⟨hc, hlg⟩ := okPairInj h
      exact ⟨c0, lg0, lg1, hfs, hc ▸ hr, hlg.symm⟩

theorem doCtxFull_false_decomp {inst : SpecInstance} {c : Ctxt} {lg : List String}
    (h : doCtxFull inst false = .ok (c, lg)) :
    ∃ c0 lg0 c1 lg1 lg2,
      fieldsStep inst (findVars (combinedDoc inst)) = .ok (c0, lg0) ∧
      ctxVarsLoop inst (sortStrs (findVars (combinedDoc inst))) c0 = .ok (c1, lg1) ∧
      extMembersLoop inst (dirNames inst) c1 = .ok (c, lg2) ∧
      lg = lg0 ++ lg1 ++ lg2 := by
  unfold doCtxFull at h
  split at h
  · exact absurd h (by simp)
  · rename_i c0 lg0 hfs
    split at h
    · exact absurd h (by simp)
    · rename_i c1 lg1 hr
      rw [if_neg (by simp)] at h
      split at h
      · exact absurd h (by simp)
      · rename_i c2 lg2 hx
        obtain ⟨hc, hlg⟩ := okPairInj h
        exact ⟨c0, lg0, c1, lg1, lg2, hfs, hr, hc ▸ hx, hlg.symm⟩

theorem doCtxFull_lookup_none {inst : SpecInstance} {t : Bool} {c : Ctxt} {lg : List String}
    {k : String} (h : doCtxFull inst t = .ok (c, lg))
    (hk : k ≠ "fields")
    (hnv : k ∉ findVars (combinedDoc inst))
    (hm : lookupMember inst k = none ∨ ∃ e, lookupMember inst k = some (.fn (.error e))) :
    lookupCtx c k = none := by
  have hnv' : k ∉ sortStrs (findVars (combinedDoc inst)) := fun hmem =>
    hnv (mem_sortStrs.mp hmem)
  cases t with
  | true =>
    obtain ⟨c0, lg0, lg1, hfs, hr, _⟩ := doCtxFull_true_decomp h
    exact ctxVarsLoop_lookup_none hr (fieldsStep_lookup_of_ok hfs hk) hnv'
  | false =>
    obtain ⟨c0, lg0, c1, lg1, lg2, hfs, hr, hx, _⟩ := doCtxFull_false_decomp h
    have h1 : lookupCtx c1 k = none :=
      ctxVarsLoop_lookup_none hr (fieldsStep_lookup_of_ok hfs hk) hnv'
    rcases hm with hm | ⟨e, hm⟩
    · rw [extLoop_nomember_preserved hx hm]
      exact h1
    · rw [extLoop_fnerr_preserved hx hm]
      exact h1

theorem mem_dirNames_of_member {inst : SpecInstance} {name : String} {m : Member}
    (h : lookupMember inst name = some m) : name ∈ dirNames inst := by
  unfold lookupMember at h
  split at h
  · rename_i kv hf
    have hmem := List.mem_of_find?_eq_some hf
    have hname : kv.1 = name := by
      have := List.find?_some hf
      exact of_decide_eq_true this
    have h1 : name ∈ inst.members.map Prod.fst :=
      List.mem_map.mpr ⟨kv, hmem, hname⟩
    have h2 : name ∈ (machineryNames ++ inst.members.map Prod.fst).dedup :=
      List.mem_dedup.mpr (List.mem_append_right _ h1)
    exact mem_sortStrs.mpr h2
  · exact absurd h (by simp)

theorem doCtxFull_false_logs_unimpl {inst : SpecInstance} {c : Ctxt} {lg : List String}
    {name em ec : String}
    (h : doCtxFull inst false = .ok (c, lg))
    (hk : name ≠ "fields")
    (hnv : name ∉ findVars (combinedDoc inst))
    (hm : lookupMember inst name = some (.fn (.error (.unimplMethod em ec))))
    (hu : startsUnderscore name = false)
    (hx1 : name ∉ excludedNames1) (hx2 : name ∉ excludedNames2) :
    name ∈ lg ∧ lookupCtx c name = none := by
  obtain ⟨c0, lg0, c1, lg1, lg2, hfs, hr, hx, hlg⟩ := doCtxFull_false_decomp h
  have hnv' : name ∉ sortStrs (findVars (combinedDoc inst)) := fun hmem =>
    hnv (mem_sortStrs.mp hmem)
  have h1 : lookupCtx c1 name = none :=
    ctxVarsLoop_lookup_none hr (fieldsStep_lookup_of_ok hfs hk) hnv'
  constructor
  · have hin : name ∈ lg2 :=
      extLoop_unimpl_logged hx hm (mem_dirNames_of_member hm) hu hx1 hx2 h1
    rw [hlg]
    exact List.mem_append_right _ hin
  · rw [extLoop_fnerr_preserved hx hm]
    exact h1

/-! ## What the unbound-placeholder message names -/

theorem strAppend_assoc (a b c : String) : (a ++ b) ++ c = a ++ (b ++ c) := by
  apply String.ext
  rw [strData_append, strData_append, strData_append, strData_append]
  exact List.append_assoc _ _ _

theorem strContains_intro_str (s sub a c : String) (h : s = a ++ sub ++ c) :
    strContains s sub = true := by
  apply strContains_intro s sub a.data c.data
  rw [h, strData_append, strData_append]

theorem mkAttrErrMsg_contains_var (var : String) (inst : SpecInstance) :
    strContains (mkAttrErrMsg var inst) ("\x7b\x7b" ++ var ++ "\x7d\x7d") = true := by
  apply strContains_intro_str _ _ "\nThe variable '"
    ("' was found in a docstring template for class '" ++ inst.leaf.name
      ++ "',\ndefined at "
      ++ (match getSourceInfo inst with
          | some s => s.file ++ ":" ++ toString s.startLine
          | none => "unknown location")
      ++ ",\nbut no matching method or attribute '" ++ dashTr var
      ++ "' was found.\n\nFIX: implement 'def " ++ dashTr var ++ "(self):' in class '"
      ++ inst.leaf.name ++ "' or one of its bases.\n")
  unfold mkAttrErrMsg
  have e1 : ("\nThe variable '\x7b\x7b" : String) = "\nThe variable '" ++ "\x7b\x7b" := rfl
  have e2 : ("\x7d\x7d' was found in a docstring template for class '" : String) =
      "\x7d\x7d" ++ "' was found in a docstring template for class '" := rfl
  rw [e1, e2]
  simp only [strAppend_assoc]

theorem mkAttrErrMsg_contains_cls (var : String) (inst : SpecInstance) :
    strContains (mkAttrErrMsg var inst) inst.leaf.name = true := by
  apply strContains_intro_str _ _
    ("\nThe variable '\x7b\x7b" ++ var
      ++ "\x7d\x7d' was found in a docstring template for class '")
    ("',\ndefined at "
      ++ (match getSourceInfo inst with
          | some s => s.file ++ ":" ++ toString s.startLine
          | none => "unknown location")
      ++ ",\nbut no matching method or attribute '" ++ dashTr var
      ++ "' was found.\n\nFIX: implement 'def " ++ dashTr var ++ "(self):' in class '"
      ++ inst.leaf.name ++ "' or one of its bases.\n")
  unfold mkAttrErrMsg
  simp only [strAppend_assoc]

theorem mkAttrErrMsg_contains_loc {inst : SpecInstance} {s : SourceInfo}
    (h : getSourceInfo inst = some s) (var : String) :
    strContains (mkAttrErrMsg var inst) (s.file ++ ":" ++ toString s.startLine) = true := by
  apply strContains_intro_str _ _
    ("\nThe variable '\x7b\x7b" ++ var
      ++ "\x7d\x7d' was found in a docstring template for class '" ++ inst.leaf.name
      ++ "',\ndefined at ")
    (",\nbut no matching method or attribute '" ++ dashTr var
      ++ "' was found.\n\nFIX: implement 'def " ++ dashTr var ++ "(self):' in class '"
      ++ inst.leaf.name ++ "' or one of its bases.\n")
  unfold mkAttrErrMsg
  rw [h]
  simp only [strAppend_assoc]

theorem mkAttrErrMsg_contains_accessor (var : String) (inst : SpecInstance) :
    strContains (mkAttrErrMsg var inst) (dashTr var) = true := by
  apply strContains_intro_str _ _
    ("\nThe variable '\x7b\x7b" ++ var
      ++ "\x7d\x7d' was found in a docstring template for class '" ++ inst.leaf.name
      ++ "',\ndefined at "
      ++ (match getSourceInfo inst with
          | some s => s.file ++ ":" ++ toString s.startLine
          | none => "unknown location")
      ++ ",\nbut no matching method or attribute '")
    ("' was found.\n\nFIX: implement 'def " ++ dashTr var ++ "(self):' in class '"
      ++ inst.leaf.name ++ "' or one of its bases.\n")
  unfold mkAttrErrMsg
  simp only [strAppend_assoc]

theorem mkAttrErrMsg_contains_fix (var : String) (inst : SpecInstance) :
    strContains (mkAttrErrMsg var inst) ("def " ++ dashTr var ++ "(self):") = true := by
  apply strContains_intro_str _ _
    ("\nThe variable '\x7b\x7b" ++ var
      ++ "\x7d\x7d' was found in a docstring template for class '" ++ inst.leaf.name
      ++ "',\ndefined at "
      ++ (match getSourceInfo inst with
          | some s => s.file ++ ":" ++ toString s.startLine
          | none => "unknown location")
      ++ ",\nbut no matching method or attribute '" ++ dashTr var
      ++ "' was found.\n\nFIX: implement '")
    ("' in class '" ++ inst.leaf.name ++ "' or one of its bases.\n")
  unfold mkAttrErrMsg
  have e3 : ("' was found.\n\nFIX: implement 'def " : String) =
      "' was found.\n\nFIX: implement '" ++ "def " := rfl
  have e4 : ("(self):' in class '" : String) = "(self):" ++ "' in class '" := rfl
  rw [e3, e4]
  simp only [strAppend_assoc]

theorem unimplMsg_contains_method (method cls : String) :
    strContains (unimplMsg method cls) method = true := by
  apply strContains_intro_str _ _ "Method '"
    ("' is not implemented in class '" ++ cls ++ "'")
  unfold unimplMsg
  simp only [strAppend_assoc]

theorem unimplMsg_contains_cls (method cls : String) :
    strContains (unimplMsg method cls) cls = true := by
  apply strContains_intro_str _ _ ("Method '" ++ method ++ "' is not implemented in class '")
    "'"
  unfold unimplMsg
  simp only [strAppend_assoc]

/-! ## Remaining small lemmas and observers -/

/-- Any evaluation error of the member bound to a placeholder is an
`UnimplementedMethodError` (and the member is not positive-arity). -/
def evalErrUnimplOnlyB (inst : SpecInstance) (v : String) : Bool :=
  match lookupMember inst (dashTr v) with
  | some (.fn (.error (.unimplMethod _ _))) => true
  | some (.fn (.error _)) => false
  | some (.fnArity _) => false
  | _ => true

/-- Text of the first child with the given tag. -/
def childTagText (e : XmlElem) (tag : String) : Option (Option String) :=
  match e.children.find? (fun ch => ch.tag == tag) with
  | some ch => some ch.text
  | none => none

/-- Same observer through the serializer's `Except`. -/
def elemObs : Except SpecErr XmlElem → String → Option (Option String)
  | .ok e, tag => childTagText e tag
  | .error _, _ => none

theorem doCtx_error_of_full {inst : SpecInstance} {t : Bool} {e : SpecErr}
    (h : doCtxFull inst t = .error e) : doCtx inst t = .error e := by
  unfold doCtx
  rw [h]
  rfl

theorem doCtx_ok_of_full {inst : SpecInstance} {t : Bool} {c : Ctxt} {lg : List String}
    (h : doCtxFull inst t = .ok (c, lg)) : doCtx inst t = .ok c := by
  unfold doCtx
  rw [h]
  rfl

theorem ctxVarsLoop_fields_none {inst : SpecInstance} {vs : List String} {c c' : Ctxt}
    {lg : List String} (h : ctxVarsLoop inst vs c = .ok (c', lg))
    (hk : lookupCtx c "fields" = none) : lookupCtx c' "fields" = none := by
  induction vs generalizing c lg with
  | nil =>
    simp only [ctxVarsLoop] at h
    obtain ⟨hc, _⟩ := okPairInj h
    rw [← hc]
    exact hk
  | cons v rest ih =>
    simp only [ctxVarsLoop] at h
    split at h
    · exact ih h hk
    · rename_i hv
      split at h
      · exact absurd h (by simp)
      · rename_i w lg₀ hg
        split at h
        · rename_i c'' lg' hr
          obtain ⟨hc, _⟩ := okPairInj h
          subst hc
          exact ih hr (lookupCtx_append_none hk hv)
        · exact absurd h (by simp)

theorem filter_insertPair_skip {p : String × Value} {l : List (String × Value)}
    (hp : isLineKey p.1 = true) :
    (insertPair p l).filter (fun kv => !(isLineKey kv.1)) =
      l.filter (fun kv => !(isLineKey kv.1)) := by
  induction l with
  | nil => simp [insertPair, hp]
  | cons q rest ih =>
    simp only [insertPair]
    split
    · simp [List.filter_cons, hp]
    · rw [List.filter_cons, List.filter_cons, ih]

theorem toXmlChild_tag (name : String) (v : Value) : (toXmlChild name v).tag = name := by
  cases v with
  | str s => rw [toXmlChild_str]
  | nat n => rw [toXmlChild_nat]
  | list l => rw [toXmlChild_list]
  | dict kvs => rw [toXmlChild_dict]

/-! ## Concrete instances used by the claim theorems -/

/-- A leaf in `/ws/main.py` whose only template fragment (with placeholder
`foo`) is declared by the ancestor `ReqBase` in `/ws/base.py`, and which
binds no accessor at all. -/
def c1inst : SpecInstance :=
  { leaf := ⟨"MyReq", none, some ⟨"/ws/main.py", 10, 20⟩⟩
  , ancestors := [⟨"ReqBase", some "Value: \x7b\x7bfoo\x7d\x7d", some ⟨"/ws/base.py", 5, 8⟩⟩]
  , members := [] }

/-- The three-level hierarchy of the repository's own
`test_inheritance_rendering`: grandparent docstring "Header", parent
"Body", leaf notes "Footer". -/
def c2inst : SpecInstance :=
  { leaf := ⟨"Child", some "Footer", some ⟨"/ws/test.py", 30, 35⟩⟩
  , ancestors := [⟨"Parent", some "Body", some ⟨"/ws/test.py", 20, 25⟩⟩,
                  ⟨"GrandParent", some "Header", some ⟨"/ws/test.py", 10, 15⟩⟩]
  , members := [] }

/-- A leaf whose notes reference `only_in_notes` while the merged ancestor
template is placeholder-free. -/
def c5inst : SpecInstance :=
  { leaf := ⟨"NotesVar", some "\x7b\x7bonly_in_notes\x7d\x7d", none⟩
  , ancestors := [⟨"Tpl", some "Plain template text", none⟩]
  , members := [] }

/-- A leaf whose ancestors carry no docstring (empty merged template) but
whose notes reference `x`, bound to an accessor. -/
def c6inst : SpecInstance :=
  { leaf := ⟨"NoteOnly", some "\x7b\x7bx\x7d\x7d", none⟩
  , ancestors := [⟨"Base", none, none⟩]
  , members := [("x", .fn (.ok (.str "v")))] }

/-- A placeholder-free-notes leaf with an empty merged template. -/
def c6winst : SpecInstance :=
  { leaf := ⟨"PlainNotes", some "just notes", none⟩
  , ancestors := [⟨"Base", none, none⟩]
  , members := [] }

/-- A template mentioning `a` twice, bound to one accessor. -/
def c7inst : SpecInstance :=
  { leaf := ⟨"Leaf7", none, none⟩
  , ancestors := [⟨"Tpl7", some "\x7b\x7ba\x7d\x7d and \x7b\x7ba\x7d\x7d", none⟩]
  , members := [("a", .fn (.ok (.str "v")))] }

/-- A `Feature`-style leaf that implements `feature_name` but leaves the
`date` and `description` accessors unimplemented; neither appears in the
merged template. -/
def c8inst : SpecInstance :=
  { leaf := ⟨"MyFeature", none, some ⟨"/ws/feat.py", 3, 6⟩⟩
  , ancestors := [⟨"Feature", some "Feature Specification: \x7b\x7bfeature_name\x7d\x7d",
      some ⟨"/ws/spec.py", 354, 368⟩⟩]
  , members := [("feature_name", .fn (.ok (.str "MyFeature"))),
                ("date", .fn (.error (.unimplMethod "date" "MyFeature"))),
                ("description", .fn (.error (.unimplMethod "description" "MyFeature")))] }

/-- A leaf whose merged template references the unimplemented `date`. -/
def c8winst : SpecInstance :=
  { leaf := ⟨"MyFeature2", none, none⟩
  , ancestors := [⟨"Feature", some "Created: \x7b\x7bdate\x7d\x7d", none⟩]
  , members := [("date", .fn (.error (.unimplMethod "date" "MyFeature2")))] }

/-- A `DataSchema`-style leaf whose template references `fields` and
`model_name` but which declares no `fields` member. -/
def c9inst : SpecInstance :=
  { leaf := ⟨"SchemaX", none, none⟩
  , ancestors := [⟨"DataSchema",
      some "DATA-MODEL: \x7b\x7bmodel_name\x7d\x7d FIELDS: \x7b\x7bfields\x7d\x7d", none⟩]
  , members := [("model_name", .fn (.ok (.str "SchemaX")))] }

/-! ## Claim theorems -/

/-- **C3**: entering context building behind `Ctx.ctx` guards re-entrancy:
a re-entrant call while the `_in_ctx` flag is set returns an empty context
without running `_do_ctx` at all (the result is independent of the body and
the flag stays held by the outer call); when the flag is clear the body runs
and the flag is false after completion whether the body returned normally or
raised; hence a subsequent independent call behaves as if the first call
never happened. -/
theorem c3_recursion_guard :
    (∀ inst s t, ctx inst s t = ctxGuard (doCtx inst t) s) ∧
    (∀ body : Except SpecErr Ctxt, ctxGuard body true = (.ok [], true)) ∧
    (∀ body : Except SpecErr Ctxt,
      (ctxGuard body false).1 = body ∧ (ctxGuard body false).2 = false) ∧
    (∀ b₁ b₂ : Except SpecErr Ctxt, ctxGuard b₂ (ctxGuard b₁ false).2 = ctxGuard b₂ false) :=
  ⟨fun _ _ _ => rfl, fun _ => rfl, fun _ => ⟨rfl, rfl⟩, fun _ _ => rfl⟩

/-- **C2** (code bug): `_get_base_template` walks `__mro__[1:]` in order, so
the most-derived ancestor's fragment comes first.  For the repository's own
`test_inheritance_rendering` hierarchy (GrandParent "Header" → Parent
"Body" → Child "Footer") the merged template is `"Body\n\nHeader"` and the
serialized description places "Body" before "Header", while the test (and
the claim) require "Header" before "Body". -/
theorem c2_merge_order_code_bug :
    getBaseTemplate c2inst = "Body" ++ "\n\n" ++ "Header" ∧
    elemObs (toXmlElement c2inst) "description" = some (some ("Body" ++ "\n\n" ++ "Header")) ∧
    elemObs (toXmlElement c2inst) "notes" = some (some "Footer") :=
  ⟨rfl, rfl, rfl⟩

/-- **C10**: `_to_xml_element` silently omits `start_line`/`end_line`
entries from every serialized mapping — inserting such an entry anywhere in
a dict (at any nesting level, since every dict node is produced by this one
function) leaves the output unchanged — and the children are exactly the
conversions of the remaining entries in sorted key order. -/
theorem c10_line_keys_skipped :
    (∀ (name k : String) (v : Value) (kvs : List (String × Value)),
      (k = "start_line" ∨ k = "end_line") →
      toXmlChild name (.dict ((k, v) :: kvs)) = toXmlChild name (.dict kvs)) ∧
    (∀ (name : String) (kvs : List (String × Value)),
      (toXmlChild name (.dict kvs)).children =
        ((sortPairs kvs).filter (fun kv => !(isLineKey kv.1))).map
          (fun kv => toXmlChild (dashTr kv.1) kv.2)) := by
  constructor
  · intro name k v kvs hk
    rw [toXmlChild_dict, toXmlChild_dict]
    have hline : isLineKey k = true := by
      rcases hk with hk | hk
      · simp [isLineKey, hk]
      · simp [isLineKey, hk]
    have : sortPairs ((k, v) :: kvs) = insertPair (k, v) (sortPairs kvs) := rfl
    rw [this, filter_insertPair_skip hline]
  · intro name kvs
    rw [toXmlChild_dict]

/-- **C10** witness: a user mapping `\x7bstart_line: 7, color: red\x7d`
serializes identically to `\x7bcolor: red\x7d`. -/
theorem c10_witness :
    toXmlChild "d" (.dict [("start_line", .nat 7), ("color", .str "red")]) =
      toXmlChild "d" (.dict [("color", .str "red")]) :=
  c10_line_keys_skipped.1 "d" "start_line" (.nat 7) [("color", .str "red")] (Or.inl rfl)

/-- **C4**: dict children are emitted in sorted key order regardless of the
mapping's insertion order — two insertion orders of the same entries with
distinct keys serialize identically, and recursively so: serialization is
invariant under the deep relation `VEq`, which permutes dict entries at any
nesting depth (last conjunct); list values become repeated `item` children
in list order; and every emitted element name is the dash-to-underscore
translation of its key, the keys appearing in lexicographically sorted
order.  The same holds for the document's `context` node. -/
theorem c4_sorted_serialization :
    (∀ (name : String) (kvs kvs' : List (String × Value)), kvs.Perm kvs' →
      (kvs.map Prod.fst).Nodup →
      toXmlChild name (.dict kvs) = toXmlChild name (.dict kvs')) ∧
    (∀ (name : String) (l : List Value),
      (toXmlChild name (.list l)).children = l.map (toXmlChild "item") ∧
      ∀ e ∈ (toXmlChild name (.list l)).children, e.tag = "item") ∧
    (∀ (name : String) (kvs : List (String × Value)),
      (toXmlChild name (.dict kvs)).children.map XmlElem.tag =
        ((sortPairs kvs).filter (fun kv => !(isLineKey kv.1))).map (fun kv => dashTr kv.1) ∧
      List.Sorted (fun a b => strLeB a b = true)
        (((sortPairs kvs).filter (fun kv => !(isLineKey kv.1))).map Prod.fst)) ∧
    (∀ ctxt ctxt' : Ctxt, ctxt.Perm ctxt' → (ctxt.map Prod.fst).Nodup →
      contextChildOf ctxt = contextChildOf ctxt') ∧
    (∀ (name : String) (v v' : Value), VEq v v' →
      toXmlChild name v = toXmlChild name v') := by
  refine ⟨?_, ?_, ?_, ?_, ?_⟩
  · intro name kvs kvs' hp hnd
    rw [toXmlChild_dict, toXmlChild_dict, sortPairs_eq_of_perm hp hnd]
  · intro name l
    constructor
    · rw [toXmlChild_list]
    · intro e he
      rw [toXmlChild_list] at he
      obtain ⟨v, _, hv⟩ := List.mem_map.mp he
      rw [← hv, toXmlChild_tag]
  · intro name kvs
    constructor
    · rw [toXmlChild_dict]
      rw [List.map_map]
      apply List.map_congr_left
      intro kv _
      exact toXmlChild_tag (dashTr kv.1) kv.2
    · have hs : List.Sorted pairLe ((sortPairs kvs).filter (fun kv => !(isLineKey kv.1))) :=
        List.Pairwise.filter _ (sortPairs_sorted kvs)
      exact List.pairwise_map.mpr hs
  · intro ctxt ctxt' hp hnd
    unfold contextChildOf
    rw [sortPairs_eq_of_perm hp hnd]
  · intro name v v' h
    exact toXmlChild_congr h name

/-- **C4** witness: the entries `b, a` inserted in either order serialize
identically (and hence in sorted order), and the same holds one nesting
level down — reordering the entries of an inner dict leaves the document
unchanged. -/
theorem c4_witness :
    (toXmlChild "context" (.dict [("b", .str "2"), ("a", .str "1")]) =
      toXmlChild "context" (.dict [("a", .str "1"), ("b", .str "2")])) ∧
    (toXmlChild "context"
        (.dict [("outer", .dict [("b", .str "2"), ("a", .str "1")])]) =
      toXmlChild "context"
        (.dict [("outer", .dict [("a", .str "1"), ("b", .str "2")])])) :=
  ⟨c4_sorted_serialization.1 "context" _ _
      (List.Perm.swap ("a", Value.str "1") ("b", Value.str "2") [])
      (by decide),
    c4_sorted_serialization.2.2.2.2 "context" _ _
      (@VEq.dict
        [("outer", .dict [("b", .str "2"), ("a", .str "1")])]
        [("outer", .dict [("a", .str "1"), ("b", .str "2")])]
        [("outer", .dict [("a", .str "1"), ("b", .str "2")])]
        (VEqEntries.cons rfl
          (@VEq.dict
            [("b", .str "2"), ("a", .str "1")]
            [("b", .str "2"), ("a", .str "1")]
            [("a", .str "1"), ("b", .str "2")]
            (VEqEntries.cons rfl (VEq.str "2")
              (VEqEntries.cons rfl (VEq.str "1") VEqEntries.nil))
            (List.Perm.swap ("a", Value.str "1") ("b", Value.str "2") [])
            (by decide))
          VEqEntries.nil)
        (List.Perm.refl _)
        (by decide))⟩

theorem scanVarsAux_cons_nl (cs : List Char) :
    scanVarsAux ('\n' :: cs) none = scanVarsAux cs none := by
  cases cs with
  | nil => rfl
  | cons c2 rest =>
    simp only [scanVarsAux]
    rw [if_neg (fun h => absurd h.1 (by decide))]

/-- **C6** counterexample: an instance with an empty merged template whose
notes reference a bound accessor resolves to a non-empty context — the
claimed short-circuit to an empty context does not exist in `_do_ctx`. -/
theorem c6_counterexample :
    getBaseTemplate c6inst = "" ∧
    doCtx c6inst true = .ok [("x", Value.str "v")] ∧
    [("x", Value.str "v")] ≠ ([] : Ctxt) :=
  ⟨rfl, rfl, by simp⟩

/-- **C6** amended: when no ancestor provides a fragment *and the instance
notes contain no placeholders*, template-only resolution yields the empty
context, the serialized document omits the `description` node, and the
`notes` node carries exactly the trimmed instance notes. -/
theorem c6_empty_template_amended (inst : SpecInstance)
    (h1 : getBaseTemplate inst = "")
    (h2 : findVars (getInstanceNotes inst) = [])
    (hext : okB (doCtxFull inst false) = true) :
    doCtx inst true = .ok [] ∧
    descChildrenOf inst [] = [] ∧
    (getInstanceNotes inst ≠ "" →
      notesChildrenOf inst [] =
        [⟨"notes", [], some (trimStr (getInstanceNotes inst)), []⟩]) ∧
    (∀ el, toXmlElement inst = .ok el →
      ∃ cF lgF, doCtxFull inst false = .ok (cF, lgF) ∧
        el.children = srcChildrenOf inst ++ notesChildrenOf inst []
          ++ [contextChildOf cF]) := by
  have hfv : findVars (combinedDoc inst) = [] := by
    have hcd : (combinedDoc inst).data = '\n' :: (getInstanceNotes inst).data := by
      unfold combinedDoc
      rw [h1, strData_append, strData_append]
      rfl
    unfold findVars
    rw [hcd, scanVarsAux_cons_nl]
    exact h2
  have hT : doCtxFull inst true = .ok ([], []) := by
    unfold doCtxFull
    rw [hfv, fieldsStep_of_not_mem (by simp)]
    rfl
  have hdesc : descChildrenOf inst [] = [] := by
    unfold descChildrenOf
    rw [h1]
    rfl
  have hnotes : getInstanceNotes inst ≠ "" →
      notesChildrenOf inst [] =
        [⟨"notes", [], some (trimStr (getInstanceNotes inst)), []⟩] := by
    intro hne
    unfold notesChildrenOf
    rw [if_neg hne, renderVars_id _ h2]
  refine ⟨doCtx_ok_of_full hT, hdesc, hnotes, ?_⟩
  intro el hel
  cases hF : doCtxFull inst false with
  | error e =>
    rw [hF] at hext
    simp [okB] at hext
  | ok rF =>
    obtain ⟨cF, lgF⟩ := rF
    refine ⟨cF, lgF, rfl, ?_⟩
    have hcomp : toXmlElement inst = .ok ⟨"specification", [("type", inst.leaf.name)], none,
        srcChildrenOf inst ++ descChildrenOf inst [] ++ notesChildrenOf inst []
          ++ [contextChildOf cF]⟩ := by
      unfold toXmlElement toXmlElementFull
      rw [hT, hF]
      rfl
    rw [hcomp] at hel
    injection hel with hel
    rw [← hel]
    simp only [hdesc, List.append_nil]

/-- **C6** witness: a leaf with placeholder-free notes under docstring-less
ancestors. -/
theorem c6_witness :
    doCtx c6winst true = .ok [] ∧
    descChildrenOf c6winst [] = [] ∧
    (getInstanceNotes c6winst ≠ "" →
      notesChildrenOf c6winst [] =
        [⟨"notes", [], some (trimStr (getInstanceNotes c6winst)), []⟩]) ∧
    (∀ el, toXmlElement c6winst = .ok el →
      ∃ cF lgF, doCtxFull c6winst false = .ok (cF, lgF) ∧
        el.children = srcChildrenOf c6winst ++ notesChildrenOf c6winst []
          ++ [contextChildOf cF]) :=
  c6_empty_template_amended c6winst rfl rfl rfl

/-- **C5** counterexample: `only_in_notes` occurs only in the leaf notes,
not in the merged ancestor template, yet `_do_ctx` (which scans
`doc + "\n" + notes`) raises the unbound-placeholder `AttributeError`
naming it. -/
theorem c5_counterexample :
    findVars (getBaseTemplate c5inst) = [] ∧
    findVars (combinedDoc c5inst) = ["only_in_notes"] ∧
    attrErrOf (doCtx c5inst true) = some (mkAttrErrMsg "only_in_notes" c5inst) :=
  ⟨rfl, rfl, rfl⟩

/-- **C5** amended: placeholders are extracted from the concatenation of
the merged ancestor template and the instance notes, so an identifier
contributed only by the notes both requires an accessor binding and causes
the unbound-placeholder hard failure when none exists; the notes themselves
are rendered separately into the `notes` node. -/
theorem c5_notes_scanned_amended (inst : SpecInstance) (var : String)
    (hvar : var ∈ findVars (combinedDoc inst))
    (hnot : var ∉ findVars (getBaseTemplate inst))
    (hne : var ≠ "fields")
    (hmiss : lookupMember inst (dashTr var) = none)
    (hf : fieldsOkB inst = true) (hev : allEvalOkB inst = true) :
    ∃ v₀ ∈ findVars (combinedDoc inst), v₀ ≠ "fields" ∧
      lookupMember inst (dashTr v₀) = none ∧
      doCtx inst true = .error (.attributeError (mkAttrErrMsg v₀ inst)) := by
  obtain ⟨v₀, hv₀, hne₀, hm₀, hfull⟩ :=
    doCtx_missing_attrib inst hf hev ⟨var, hvar, hne, hmiss⟩
  exact ⟨v₀, hv₀, hne₀, hm₀, doCtx_error_of_full hfull⟩

/-- **C5** witness: the notes-only identifier of `c5inst`. -/
theorem c5_witness :
    ∃ v₀ ∈ findVars (combinedDoc c5inst), v₀ ≠ "fields" ∧
      lookupMember c5inst (dashTr v₀) = none ∧
      doCtx c5inst true = .error (.attributeError (mkAttrErrMsg v₀ c5inst)) :=
  c5_notes_scanned_amended c5inst "only_in_notes" (by decide) (by decide) (by decide)
    rfl rfl rfl

set_option maxRecDepth 100000 in
/-- **C1** counterexample: the fragment declaring `\x7b\x7bfoo\x7d\x7d`
lives in ancestor `ReqBase` at `/ws/base.py:5`, but the raised error names
neither that class nor that file — it reports the leaf class `MyReq` and
the leaf's own location `/ws/main.py:10`. -/
theorem c1_counterexample :
    attrErrOf (doCtx c1inst true) = some (mkAttrErrMsg "foo" c1inst) ∧
    strContains (mkAttrErrMsg "foo" c1inst) "base.py" = false ∧
    strContains (mkAttrErrMsg "foo" c1inst) "ReqBase" = false ∧
    strContains (mkAttrErrMsg "foo" c1inst) "/ws/main.py:10" = true ∧
    strContains (mkAttrErrMsg "foo" c1inst) "MyReq" = true :=
  ⟨rfl, rfl, rfl, rfl, rfl⟩

/-- **C1** amended: an unbound placeholder makes context resolution and
serialization fail with an `AttributeError` whose message names the
placeholder, the *concrete instance's* class, the *concrete class's* source
file and line (not the fragment-declaring ancestor's), and the exact
accessor to implement; the placeholder is never silently rendered empty,
since serialization propagates the same error. -/
theorem c1_unbound_placeholder_amended (inst : SpecInstance)
    (hf : fieldsOkB inst = true) (hev : allEvalOkB inst = true)
    (hmiss : ∃ v ∈ findVars (combinedDoc inst),
      v ≠ "fields" ∧ lookupMember inst (dashTr v) = none) :
    ∃ v₀ ∈ findVars (combinedDoc inst), v₀ ≠ "fields" ∧
      lookupMember inst (dashTr v₀) = none ∧
      doCtx inst true = .error (.attributeError (mkAttrErrMsg v₀ inst)) ∧
      toXmlElement inst = .error (.attributeError (mkAttrErrMsg v₀ inst)) ∧
      strContains (mkAttrErrMsg v₀ inst) ("\x7b\x7b" ++ v₀ ++ "\x7d\x7d") = true ∧
      strContains (mkAttrErrMsg v₀ inst) inst.leaf.name = true ∧
      (∀ s, getSourceInfo inst = some s →
        strContains (mkAttrErrMsg v₀ inst) (s.file ++ ":" ++ toString s.startLine) = true) ∧
      strContains (mkAttrErrMsg v₀ inst) (dashTr v₀) = true ∧
      strContains (mkAttrErrMsg v₀ inst) ("def " ++ dashTr v₀ ++ "(self):") = true := by
  obtain ⟨v₀, hv₀, hne₀, hm₀, hfull⟩ := doCtx_missing_attrib inst hf hev hmiss
  exact ⟨v₀, hv₀, hne₀, hm₀, doCtx_error_of_full hfull,
    toXmlElement_error_of_ctx hfull,
    mkAttrErrMsg_contains_var v₀ inst,
    mkAttrErrMsg_contains_cls v₀ inst,
    fun s hs => mkAttrErrMsg_contains_loc hs v₀,
    mkAttrErrMsg_contains_accessor v₀ inst,
    mkAttrErrMsg_contains_fix v₀ inst⟩

/-- **C1** witness: `c1inst` has the unbound placeholder `foo`. -/
theorem c1_witness :
    ∃ v₀ ∈ findVars (combinedDoc c1inst), v₀ ≠ "fields" ∧
      lookupMember c1inst (dashTr v₀) = none ∧
      doCtx c1inst true = .error (.attributeError (mkAttrErrMsg v₀ c1inst)) ∧
      toXmlElement c1inst = .error (.attributeError (mkAttrErrMsg v₀ c1inst)) ∧
      strContains (mkAttrErrMsg v₀ c1inst) ("\x7b\x7b" ++ v₀ ++ "\x7d\x7d") = true ∧
      strContains (mkAttrErrMsg v₀ c1inst) c1inst.leaf.name = true ∧
      (∀ s, getSourceInfo c1inst = some s →
        strContains (mkAttrErrMsg v₀ c1inst) (s.file ++ ":" ++ toString s.startLine) = true) ∧
      strContains (mkAttrErrMsg v₀ c1inst) (dashTr v₀) = true ∧
      strContains (mkAttrErrMsg v₀ c1inst) ("def " ++ dashTr v₀ ++ "(self):") = true :=
  c1_unbound_placeholder_amended c1inst rfl rfl ⟨"foo", by decide, by decide, rfl⟩

/-- **C9**: the reserved identifier `fields` is exempt from the
unbound-placeholder failure: when a merged template references `fields` and
the instance has no `fields` attribute, resolution succeeds with `fields`
simply absent from the context (provided the other placeholders resolve);
and `fields` is the *only* exempt identifier — any other placeholder with
no bound member makes resolution fail, unconditionally. -/
theorem c9_fields_exempt (inst : SpecInstance) :
    ("fields" ∈ findVars (combinedDoc inst) → lookupMember inst "fields" = none →
      (∀ v ∈ findVars (combinedDoc inst), v = "fields" ∨ okB (getMember inst v) = true) →
      ∃ c lg, doCtxFull inst true = .ok (c, lg) ∧ lookupCtx c "fields" = none) ∧
    (∀ var ∈ findVars (combinedDoc inst), var ≠ "fields" →
      lookupMember inst (dashTr var) = none → okB (doCtx inst true) = false) := by
  constructor
  · intro hmem habs hall
    have hfs : fieldsStep inst (findVars (combinedDoc inst)) = .ok ([], []) :=
      fieldsStep_of_absent habs
    obtain ⟨⟨c1, lg1⟩, hr⟩ :=
      ctxVarsLoop_ok inst (sortStrs (findVars (combinedDoc inst))) []
        (fun v hv => hall v (mem_sortStrs.mp hv))
    refine ⟨c1, [] ++ lg1, ?_, ?_⟩
    · unfold doCtxFull
      simp only [hfs, hr, if_pos]
    · exact ctxVarsLoop_fields_none hr rfl
  · intro var hvar hne hmiss
    cases hF : doCtxFull inst true with
    | error e =>
      unfold doCtx
      rw [hF]
      rfl
    | ok r =>
      exfalso
      have hok := doCtxFull_ok_vars hF var hvar hne
      simp [getMember, hmiss, okB] at hok

/-- **C9** witness: a `DataSchema`-style instance whose template references
`fields` with no `fields` member resolves with `fields` absent. -/
theorem c9_witness :
    ∃ c lg, doCtxFull c9inst true = .ok (c, lg) ∧ lookupCtx c "fields" = none :=
  (c9_fields_exempt c9inst).1 (by decide) rfl (by decide)

/-- **C8** counterexample: `c8inst` leaves `date` unimplemented; the
extended serialization pass *invokes* it (it appears in the invocation log)
yet serialization succeeds — the error does not propagate, contradicting
"fatal upon invocation" for accessors reached only by serialization. -/
theorem c8_counterexample :
    okB (toXmlElement c8inst) = true ∧
    logOf (toXmlElementFull c8inst) =
      some ["feature_name", "feature_name", "date", "description"] ∧
    "date" ∈ ["feature_name", "feature_name", "date", "description"] :=
  ⟨rfl, rfl, by decide⟩

/-- **C8** amended: invoking an unimplemented accessor through a *template
placeholder* is fatal — the `UnimplementedMethodError` (reporting the
method name and the class name recorded at raise time, which is the
concrete instance's class) propagates out of context resolution; but in the
extended serialization pass the same error is caught: the accessor is
invoked, silently omitted from the context, and serialization proceeds. -/
theorem c8_unimplemented_amended :
    (∀ inst : SpecInstance, fieldsOkB inst = true →
      (∀ v ∈ findVars (combinedDoc inst),
        v = "fields" ∨ (lookupMember inst (dashTr v)).isSome = true) →
      (∀ v ∈ findVars (combinedDoc inst), v ≠ "fields" → evalErrUnimplOnlyB inst v = true) →
      (∃ v ∈ findVars (combinedDoc inst), v ≠ "fields" ∧
        ∃ em ec, lookupMember inst (dashTr v) = some (.fn (.error (.unimplMethod em ec)))) →
      ∃ em ec, doCtx inst true = .error (.unimplMethod em ec) ∧
        strContains (unimplMsg em ec) em = true ∧
        strContains (unimplMsg em ec) ec = true) ∧
    (∀ (inst : SpecInstance) (c : Ctxt) (lg : List String) (name em ec : String),
      doCtxFull inst false = .ok (c, lg) → name ≠ "fields" →
      name ∉ findVars (combinedDoc inst) →
      lookupMember inst name = some (.fn (.error (.unimplMethod em ec))) →
      startsUnderscore name = false → name ∉ excludedNames1 → name ∉ excludedNames2 →
      name ∈ lg ∧ lookupCtx c name = none) := by
  constructor
  · intro inst hf hbound hunimpl hex
    unfold fieldsOkB at hf
    cases hfs : fieldsStep inst (findVars (combinedDoc inst)) with
    | error e =>
      rw [hfs] at hf
      simp [okB] at hf
    | ok r0 =>
      obtain ⟨c0, lg0⟩ := r0
      cases hloop : ctxVarsLoop inst (sortStrs (findVars (combinedDoc inst))) c0 with
      | ok r1 =>
        exfalso
        obtain ⟨v, hv, hne, em, ec, hm⟩ := hex
        have hok := ctxVarsLoop_all_ok_of_ok hloop v (mem_sortStrs.mpr hv) hne
        simp [getMember, hm, okB] at hok
      | error e =>
        obtain ⟨v₀, hv₀, hne₀, hg₀⟩ := ctxVarsLoop_error_attrib hloop
        have hv₀' := mem_sortStrs.mp hv₀
        have hsome := hbound v₀ hv₀'
        rcases hsome with hceq | hsome
        · exact absurd hceq hne₀
        · obtain ⟨mem, hmem⟩ := Option.isSome_iff_exists.mp hsome
          have huo := hunimpl v₀ hv₀' hne₀
          cases mem with
          | val w => simp [getMember, hmem] at hg₀
          | fn res =>
            cases res with
            | ok w => simp [getMember, hmem] at hg₀
            | error e' =>
              cases e' with
              | attributeError m => simp [evalErrUnimplOnlyB, hmem] at huo
              | typeError m => simp [evalErrUnimplOnlyB, hmem] at huo
              | unimplMethod em ec =>
                have he : e = .unimplMethod em ec := by
                  simp [getMember, hmem] at hg₀
                  exact hg₀.symm
                refine ⟨em, ec, ?_, unimplMsg_contains_method em ec,
                  unimplMsg_contains_cls em ec⟩
                apply doCtx_error_of_full
                unfold doCtxFull
                simp only [hfs, hloop, he]
          | fnArity n => simp [evalErrUnimplOnlyB, hmem] at huo
  · intro inst c lg name em ec h hk hnv hm hu hx1 hx2
    exact doCtxFull_false_logs_unimpl h hk hnv hm hu hx1 hx2

/-- **C8** witness: a template-referenced unimplemented accessor is fatal
(on `c8winst`), while the extended pass invokes and skips `date` on
`c8inst`. -/
theorem c8_witness :
    (∃ em ec, doCtx c8winst true = .error (.unimplMethod em ec) ∧
      strContains (unimplMsg em ec) em = true ∧
      strContains (unimplMsg em ec) ec = true) ∧
    ("date" ∈ ["feature_name", "date", "description"] ∧
      lookupCtx [("feature_name", Value.str "MyFeature")] "date" = none) := by
  constructor
  · exact c8_unimplemented_amended.1 c8winst rfl (by decide) (by decide)
      ⟨"date", by decide, by decide, "date", "MyFeature2", rfl⟩
  · exact c8_unimplemented_amended.2 c8inst [("feature_name", Value.str "MyFeature")]
      ["feature_name", "date", "description"] "date" "date" "MyFeature" rfl (by decide)
      (by decide) rfl rfl (by decide) (by decide)

/-- **C7** counterexample: `c7inst`'s template mentions `a` twice; one
`to_xml_element` call invokes the accessor twice (once per context build),
not once — each single build invokes it once. -/
theorem c7_counterexample :
    getBaseTemplate c7inst = "\x7b\x7ba\x7d\x7d and \x7b\x7ba\x7d\x7d" ∧
    findVars (combinedDoc c7inst) = ["a"] ∧
    logOf (doCtxFull c7inst true) = some ["a"] ∧
    logOf (toXmlElementFull c7inst) = some ["a", "a"] ∧
    (["a", "a"].count "a" = 2) :=
  ⟨rfl, rfl, rfl, rfl, by decide⟩

/-- **C7** amended: within one context build each bound accessor is invoked
exactly once per distinct placeholder name even when the placeholder occurs
multiple times in the template; but a serialize call performs exactly two
context builds (template-only, then extended), its invocation log being the
concatenation of both builds' logs. -/
theorem c7_invocations_amended :
    (∀ (inst : SpecInstance) (c : Ctxt) (lg : List String) (var : String),
      doCtxFull inst true = .ok (c, lg) →
      var ∈ findVars (combinedDoc inst) → var ≠ "fields" →
      "fields" ∉ findVars (combinedDoc inst) →
      (∃ w, lookupMember inst (dashTr var) = some (.fn (.ok w))) →
      (∀ v ∈ findVars (combinedDoc inst), dashTr v = dashTr var → v = var) →
      lg.count (dashTr var) = 1) ∧
    (∀ (inst : SpecInstance) (el : XmlElem) (lg : List String),
      toXmlElementFull inst = .ok (el, lg) →
      ∃ cT lgT cF lgF, doCtxFull inst true = .ok (cT, lgT) ∧
        doCtxFull inst false = .ok (cF, lgF) ∧ lg = lgT ++ lgF) := by
  constructor
  · intro inst c lg var h hvar hne hnof hfn hinj
    obtain ⟨c0, lg0, lg1, hfs, hr, hlg⟩ := doCtxFull_true_decomp h
    have hfs0 : fieldsStep inst (findVars (combinedDoc inst)) = .ok ([], []) :=
      fieldsStep_of_not_mem hnof
    rw [hfs0] at hfs
    obtain ⟨hc0, hlg0⟩ := okPairInj hfs
    have hlog := ctxVarsLoop_log hr
    rw [hlg, ← hlg0, hlog]
    simp only [List.nil_append]
    obtain ⟨w, hw⟩ := hfn
    apply count_filterMap_unique (tmplInvoked inst) _ var (dashTr var)
      (mem_sortStrs.mpr hvar)
    · simp [tmplInvoked, hne, hw]
    · exact ((sortStrs_perm _).nodup_iff).mpr (findVars_nodup _)
    · intro x hx hfx
      have hx' := mem_sortStrs.mp hx
      by_cases hxf : x = "fields"
      · rw [hxf] at hfx
        simp [tmplInvoked] at hfx
      · simp only [tmplInvoked, if_neg hxf] at hfx
        split at hfx
        · rename_i w' hmx
          have hdx : dashTr x = dashTr var := by injection hfx
          exact hinj x hx' hdx
        · exact absurd hfx (by simp)
  · exact fun inst el lg h => toXmlElementFull_log h

/-- **C7** witness: one template-only build of `c7inst` (template `a ... a`)
invokes the accessor once. -/
theorem c7_witness : (["a"] : List String).count (dashTr "a") = 1 := by
  have h : doCtxFull c7inst true = .ok ([("a", Value.str "v")], ["a"]) := rfl
  exact c7_invocations_amended.1 c7inst [("a", Value.str "v")] ["a"] "a" h (by decide)
    (by decide) (by decide) ⟨Value.str "v", rfl⟩ (by decide)
